import Mathlib

/-!
Verification of the `golang-database` storage driver (`src/main.go`)
against its natural-language specification.

The driver persists JSON-serialized records as files
`root/<collection>/<resource>.json` on a filesystem.  We shallowly embed:

* paths as `String`s (`filepath.Join` becomes `pjoin`, which models Go's
  `Join`/`Clean` for the already-clean, dot-free relative components the
  driver produces);
* the filesystem as an explicit state `FS`: a list of existing directory
  paths plus an association list from file path to file content
  (`List Char` bytes);
* Go's `encoding/json.MarshalIndent(v, "", "\t")` on a `Json` value type,
  including `encoding/json`'s `isValidNumber` check used for
  `json.Number` values;
* the four driver operations `Write`, `Read`, `ReadAll`, `Delete`, the
  `stat` probe and the mutex registry `getOrCreateMutex`, each translated
  line by line from `main.go`.  Each operation also returns the list of
  lock/filesystem events it performs, so that lock-acquisition ordering
  claims can be stated.
-/

set_option autoImplicit false

namespace GoDB

/-- File contents as a list of bytes/characters. -/
abbrev Bytes := List Char

/-- Model of `filepath.Join(a, b)` for the clean, dot-free relative
components produced by the driver: empty components are dropped (as
`Join`/`Clean` drop them), otherwise the components are joined with a
single `/`. -/
def pjoin (a b : String) : String :=
  if a = "" then b else if b = "" then a else a ++ "/" ++ b

/-- `beginsWith pre l` is true iff `pre` is a prefix of `l`. -/
def beginsWith : List Char → List Char → Bool
  | [], _ => true
  | _ :: _, [] => false
  | a :: as, b :: bs => a = b && beginsWith as bs

/-- The filesystem state: the set of existing directories and the files
with their contents.  File and directory paths are the strings the driver
computes with `pjoin`. -/
structure FS where
  dirs : List String
  files : List (String × Bytes)
deriving Repr, DecidableEq

/-- Look up the content of the file at path `p`. -/
def lookupFile : List (String × Bytes) → String → Option Bytes
  | [], _ => none
  | e :: rest, p => if e.1 = p then some e.2 else lookupFile rest p

/-- Remove every entry for path `p`. -/
def removeFile : List (String × Bytes) → String → List (String × Bytes)
  | [], _ => []
  | e :: rest, p => if e.1 = p then removeFile rest p else e :: removeFile rest p

/-- `underPath p q` holds iff `q` is `p` itself or lies strictly below the
directory `p`.  `os.RemoveAll p` removes exactly these paths. -/
def underPath (p q : String) : Bool :=
  q = p || beginsWith (p ++ "/").data q.data

/-- Model of `os.RemoveAll`: removes the file or directory at `p` and
everything beneath it; succeeds even when nothing exists there. -/
def removeAll (fs : FS) (p : String) : FS :=
  { dirs := fs.dirs.filter (fun d => !underPath p d),
    files := fs.files.filter (fun e => !underPath p e.1) }

/-- Model of `ioutil.WriteFile` (create or truncate): fails when the
target path is an existing directory. -/
def writeFile (fs : FS) (p : String) (b : Bytes) : Option FS :=
  if p ∈ fs.dirs then none
  else some { fs with files := (p, b) :: removeFile fs.files p }

/-- Model of `os.Rename src dst` for the driver's tmp-file commit: fails
when `src` does not exist as a file or `dst` is an existing directory;
otherwise atomically moves the content of `src` onto `dst`, replacing any
previous file there. -/
def rename (fs : FS) (src dst : String) : Option FS :=
  match lookupFile fs.files src with
  | none => none
  | some b =>
    if dst ∈ fs.dirs then none
    else some { fs with files := (dst, b) :: removeFile (removeFile fs.files src) dst }

/-- All the directory paths `os.MkdirAll p` ensures: every `/`-separated
ancestor of `p`, up to and including `p` itself.  `ancChars pre cs` walks
the remaining characters `cs` with accumulated prefix `pre`. -/
def ancChars (pre : List Char) : List Char → List (List Char)
  | [] => [pre]
  | c :: rest => if c = '/' then pre :: ancChars (pre ++ [c]) rest else ancChars (pre ++ [c]) rest

/-- The ancestors of a path, e.g. `ancestors "a/b/c" = ["a", "a/b", "a/b/c"]`. -/
def ancestors (p : String) : List String :=
  (ancChars [] p.data).map (fun cs => String.mk cs)

/-- Model of `os.MkdirAll`: fails when some ancestor of `p` exists as a
regular file, otherwise creates every missing ancestor directory. -/
def mkdirAll (fs : FS) (p : String) : Option FS :=
  if (ancestors p).any (fun d => (lookupFile fs.files d).isSome) then none
  else some { fs with dirs := (ancestors p).filter (fun d => decide (d ∉ fs.dirs)) ++ fs.dirs }

/-- Model of `ioutil.ReadFile`: fails when `p` is a directory or no file
exists at `p`. -/
def readFile (fs : FS) (p : String) : Option Bytes :=
  if p ∈ fs.dirs then none else lookupFile fs.files p

/-- The entry name of `p` when `p` is an immediate child of directory
`dir` (i.e. `p = dir ++ "/" ++ name` with `name` nonempty and free of
`/`), and `none` otherwise. -/
def childName (dir p : String) : Option String :=
  if beginsWith (dir ++ "/").data p.data then
    if p.data.drop (dir ++ "/").data.length ≠ [] ∧ '/' ∉ p.data.drop (dir ++ "/").data.length
    then some (String.mk (p.data.drop (dir ++ "/").data.length)) else none
  else none

/-- Insert a name into a sorted list of names. -/
def insertSorted (a : String) : List String → List String
  | [] => [a]
  | b :: rest => if a ≤ b then a :: b :: rest else b :: insertSorted a rest

/-- Sort names lexicographically (insertion sort). -/
def sortNames : List String → List String
  | [] => []
  | a :: rest => insertSorted a (sortNames rest)

/-- Model of `ioutil.ReadDir`: fails when `dir` is not an existing
directory; otherwise returns the names of the immediate children
(files and subdirectories), sorted by name as `ReadDir` sorts them. -/
def readDir (fs : FS) (dir : String) : Option (List String) :=
  if dir ∈ fs.dirs then
    some (sortNames ((fs.files.filterMap (fun e => childName dir e.1)) ++
           (fs.dirs.filterMap (fun d => childName dir d))))
  else none

/-- The part of `os.FileInfo` the driver consults: `fi.Mode().IsDir()` or
`fi.Mode().IsRegular()`. -/
inductive FType where
  | dir
  | file
deriving Repr, DecidableEq

/-- Model of `os.Stat`: the metadata of the node at `p`, or `none`
(an `IsNotExist` error) when nothing exists there. -/
def osStat (fs : FS) (p : String) : Option FType :=
  if p ∈ fs.dirs then some FType.dir
  else if (lookupFile fs.files p).isSome then some FType.file
  else none

/-- The driver's probing `stat` (main.go lines 76-81): stats `path` as
given and, when that does not exist, falls back to `path + ".json"`. -/
def stat (fs : FS) (path : String) : Option FType :=
  match osStat fs path with
  | some fi => some fi
  | none => osStat fs (path ++ ".json")

/-! ## The mutex registry

`Driver.mutexes : map[string]*sync.Mutex` guarded by `Driver.mu`.  We
model a mutex instance by the natural number that was fresh when it was
created, so "the same lock instance" is "the same number". -/

/-- The `Driver`'s mutex registry: the map from collection name to lock
instance, plus the supply of fresh instances. -/
structure Registry where
  entries : List (String × Nat)
  next : Nat
deriving Repr, DecidableEq

/-- Look up the lock instance registered for a collection name. -/
def lookupMutex : List (String × Nat) → String → Option Nat
  | [], _ => none
  | e :: rest, c => if e.1 = c then some e.2 else lookupMutex rest c

/-- `Driver.getOrCreateMutex` (main.go lines 179-188): return the stored
lock for `collection`, creating and storing a fresh one when absent.  The
whole lookup-or-create step runs under the registry lock `d.mu`. -/
def getOrCreateMutex (reg : Registry) (collection : String) : Registry × Nat :=
  match lookupMutex reg.entries collection with
  | some m => (reg, m)
  | none => ({ entries := (collection, reg.next) :: reg.entries, next := reg.next + 1 }, reg.next)

/-! ## JSON values and `json.MarshalIndent(v, "", "\t")` -/

/-- JSON values.  `num` carries the textual representation, as the
source's `json.Number` fields do; `obj` fields are kept in the order Go
serializes them (struct field order). -/
inductive Json where
  | null
  | bool (b : Bool)
  | num (s : String)
  | str (s : String)
  | arr (elems : List Json)
  | obj (fields : List (String × Json))
deriving Repr

/-- Go `encoding/json`'s `isValidNumber`, phase 3 of 3: the optional
exponent part (`e`/`E`, an optional sign, one or more digits), after
which the string must be exhausted. -/
def numExp (cs : List Char) : Bool :=
  match cs with
  | e :: c :: rest =>
    if e = 'e' ∨ e = 'E' then
      let cs2 := if c = '+' ∨ c = '-' then rest else c :: rest
      !cs2.isEmpty && (cs2.dropWhile Char.isDigit).isEmpty
    else false
  | _ => cs.isEmpty

/-- `isValidNumber`, phase 2 of 3: the optional fraction part (a dot
followed by one or more digits), then the exponent phase. -/
def numFrac (cs : List Char) : Bool :=
  match cs with
  | c :: c2 :: rest =>
    if c = '.' ∧ c2.isDigit then numExp (rest.dropWhile Char.isDigit)
    else numExp (c :: c2 :: rest)
  | _ => numExp cs

/-- `isValidNumber`, phase 1 of 3: the mandatory integer part, a single
`0` or a nonzero digit followed by more digits. -/
def numInt : List Char → Bool
  | [] => false
  | c :: rest =>
    if c = '0' then numFrac rest
    else if c.isDigit then numFrac (rest.dropWhile Char.isDigit)
    else false

/-- `isValidNumber`, phase 0: the optional leading minus sign. -/
def numStart : List Char → Bool
  | [] => false
  | c0 :: rest0 => if c0 = '-' then numInt rest0 else numInt (c0 :: rest0)

/-- Go `encoding/json`'s `isValidNumber`: whether `s` matches the JSON
number grammar `-?(0|[1-9][0-9]*)(\.[0-9]+)?([eE][+-]?[0-9]+)?`.
`json.Number` values failing this make `Marshal` return an error. -/
def isValidNumber (s : String) : Bool :=
  numStart s.data

/-- `depth` tab characters, the indentation `MarshalIndent` puts before
an element nested at `depth`. -/
def tabs (depth : Nat) : List Char := List.replicate depth '\t'

/-- JSON string escaping for one character.  (Go additionally escapes
`<`, `>`, `&` and other control characters as `\uXXXX`; no claim depends
on the escaping of such characters.) -/
def escapeChar (c : Char) : List Char :=
  if c = '"' then ['\\', '"']
  else if c = '\\' then ['\\', '\\']
  else if c = '\n' then ['\\', 'n']
  else if c = '\r' then ['\\', 'r']
  else if c = '\t' then ['\\', 't']
  else [c]

/-- A JSON string literal: the escaped characters between quotes. -/
def quote (s : String) : Bytes :=
  '"' :: (s.data.map escapeChar).flatten ++ ['"']

mutual

/-- `json.MarshalIndent(v, "", "\t")` for a value nested at `depth`:
compound values open on the current line, put each element on its own
line indented one level deeper, and close on a fresh line at the current
indentation.  Serializing an invalid `json.Number` is an error. -/
def marshalVal (depth : Nat) : Json → Except String Bytes
  | Json.null => Except.ok "null".data
  | Json.bool true => Except.ok "true".data
  | Json.bool false => Except.ok "false".data
  | Json.num s =>
    if isValidNumber s then Except.ok s.data
    else Except.error ("json: invalid number literal " ++ s)
  | Json.str s => Except.ok (quote s)
  | Json.arr [] => Except.ok ['[', ']']
  | Json.arr (x :: xs) =>
    match marshalArr (depth + 1) (x :: xs) with
    | Except.error e => Except.error e
    | Except.ok items => Except.ok ('[' :: '\n' :: items ++ '\n' :: tabs depth ++ [']'])
  | Json.obj [] => Except.ok ['\x7b', '\x7d']
  | Json.obj (f :: fs) =>
    match marshalObj (depth + 1) (f :: fs) with
    | Except.error e => Except.error e
    | Except.ok items => Except.ok ('\x7b' :: '\n' :: items ++ '\n' :: tabs depth ++ ['\x7d'])

/-- The comma-and-newline separated, indented element lines of an array. -/
def marshalArr (depth : Nat) : List Json → Except String Bytes
  | [] => Except.ok []
  | [x] =>
    match marshalVal depth x with
    | Except.error e => Except.error e
    | Except.ok b => Except.ok (tabs depth ++ b)
  | x :: y :: xs =>
    match marshalVal depth x with
    | Except.error e => Except.error e
    | Except.ok b =>
      match marshalArr depth (y :: xs) with
      | Except.error e => Except.error e
      | Except.ok rest => Except.ok (tabs depth ++ b ++ ',' :: '\n' :: rest)

/-- The `"key": value` lines of an object. -/
def marshalObj (depth : Nat) : List (String × Json) → Except String Bytes
  | [] => Except.ok []
  | [f] =>
    match marshalVal depth f.2 with
    | Except.error e => Except.error e
    | Except.ok b => Except.ok (tabs depth ++ quote f.1 ++ ':' :: ' ' :: b)
  | f :: g :: fs =>
    match marshalVal depth f.2 with
    | Except.error e => Except.error e
    | Except.ok b =>
      match marshalObj depth (g :: fs) with
      | Except.error e => Except.error e
      | Except.ok rest => Except.ok (tabs depth ++ quote f.1 ++ ':' :: ' ' :: b ++ ',' :: '\n' :: rest)

end

/-- `json.MarshalIndent(v, "", "\t")`. -/
def marshalIndent (v : Json) : Except String Bytes := marshalVal 0 v

/-! ## The driver operations

Each operation takes the driver's root directory `root` (the `dir` field
set by `New`) and the current filesystem, and returns the new filesystem,
the Go `error` result, and the sequence of lock and filesystem events it
performed, in order.  The registry interaction `getOrCreateMutex` +
`Lock`/deferred `Unlock` is recorded as `Ev.lock`/`Ev.unlock` events. -/

/-- The `error` values the driver returns, grouped by the taxonomy the
operations exhibit: `validation` carries the `fmt.Errorf` message for an
empty name; `notFound` is an `os.IsNotExist` failure from `stat` (or
Delete's "unable to find file or dir" error); `io` is any other
filesystem failure; `serialization` is a `json` encode error. -/
inductive DBErr where
  | validation (msg : String)
  | notFound
  | io
  | serialization (msg : String)
deriving Repr, DecidableEq

/-- Observable events: acquiring/releasing the exclusive lock of a
collection, and filesystem accesses (named after the primitive). -/
inductive Ev where
  | lock (c : String)
  | unlock (c : String)
  | fs (op : String)
deriving Repr, DecidableEq

/-- `Driver.Write` (main.go lines 83-109): validate both names, lock the
collection, `MkdirAll` the collection directory, serialize the value with
`MarshalIndent` and append `'\n'`, write the bytes to
`<final path>.tmp`, and commit with `os.Rename` onto the final path.
The deferred `mutex.Unlock()` runs on every path after the lock. -/
def Write (root : String) (fs : FS) (collection resources : String) (v : Json) :
    FS × Option DBErr × List Ev :=
  if collection = "" then
    (fs, some (DBErr.validation "collection name cannot be empty"), [])
  else if resources = "" then
    (fs, some (DBErr.validation "missing resource - unable to save record (no name)"), [])
  else
    let dir := pjoin root collection
    let fnlPath := pjoin dir (resources ++ ".json")
    let tmpPath := fnlPath ++ ".tmp"
    match mkdirAll fs dir with
    | none => (fs, some DBErr.io, [Ev.lock collection, Ev.fs "mkdir", Ev.unlock collection])
    | some fs1 =>
      match marshalIndent v with
      | Except.error e =>
        (fs1, some (DBErr.serialization e),
         [Ev.lock collection, Ev.fs "mkdir", Ev.unlock collection])
      | Except.ok b =>
        match writeFile fs1 tmpPath (b ++ ['\n']) with
        | none =>
          (fs1, some DBErr.io,
           [Ev.lock collection, Ev.fs "mkdir", Ev.fs "write", Ev.unlock collection])
        | some fs2 =>
          match rename fs2 tmpPath fnlPath with
          | none =>
            (fs2, some DBErr.io,
             [Ev.lock collection, Ev.fs "mkdir", Ev.fs "write", Ev.fs "rename",
              Ev.unlock collection])
          | some fs3 =>
            (fs3, none,
             [Ev.lock collection, Ev.fs "mkdir", Ev.fs "write", Ev.fs "rename",
              Ev.unlock collection])

/-- `Driver.Read` (main.go lines 159-177): validate both names, resolve
`record = root/collection/resource + ".json"`, probe it with `stat`, then
read the file at `record + ".json"` (note the second `".json"`, as in the
source).  On success the Go code finishes with `json.Unmarshal(b, &v)` on
the returned bytes; every claim settled here concerns the paths that
error out before that final deserialization, so the operation returns the
raw bytes read.  `Read` acquires no mutex. -/
def Read (root : String) (fs : FS) (collection resource : String) :
    FS × Except DBErr Bytes × List Ev :=
  if collection = "" then
    (fs, Except.error (DBErr.validation "collection name cannot be empty"), [])
  else if resource = "" then
    (fs, Except.error (DBErr.validation "cissing resource - unable to read record (no name)"), [])
  else
    let record := pjoin (pjoin root collection) (resource ++ ".json")
    match stat fs record with
    | none => (fs, Except.error DBErr.notFound, [Ev.fs "stat"])
    | some _ =>
      match readFile fs (record ++ ".json") with
      | none => (fs, Except.error DBErr.notFound, [Ev.fs "stat", Ev.fs "readfile"])
      | some b => (fs, Except.ok b, [Ev.fs "stat", Ev.fs "readfile"])

/-- The `for _, file := range files` loop of `ReadAll`: read every
directory entry, aborting on the first failure. -/
def readFilesLoop (fs : FS) (dir : String) : List String → Option (List Bytes)
  | [] => some []
  | n :: rest =>
    match readFile fs (pjoin dir n) with
    | none => none
    | some b =>
      match readFilesLoop fs dir rest with
      | none => none
      | some bs => some (b :: bs)

/-- `Driver.ReadAll` (main.go lines 111-137): validate the collection
name, probe the collection directory with `stat`, enumerate it with
`ReadDir` and read every entry, returning the raw text blobs.  `ReadAll`
acquires no mutex. -/
def ReadAll (root : String) (fs : FS) (collection : String) :
    FS × Except DBErr (List Bytes) × List Ev :=
  if collection = "" then
    (fs, Except.error (DBErr.validation "collection name cannot be empty"), [])
  else
    let dir := pjoin root collection
    match stat fs dir with
    | none => (fs, Except.error DBErr.notFound, [Ev.fs "stat"])
    | some _ =>
      match readDir fs dir with
      | none => (fs, Except.error DBErr.io, [Ev.fs "stat", Ev.fs "readdir"])
      | some names =>
        match readFilesLoop fs dir names with
        | none =>
          (fs, Except.error DBErr.io,
           Ev.fs "stat" :: Ev.fs "readdir" :: names.map (fun _ => Ev.fs "readfile"))
        | some records =>
          (fs, Except.ok records,
           Ev.fs "stat" :: Ev.fs "readdir" :: names.map (fun _ => Ev.fs "readfile"))

/-- `Driver.Delete` (main.go lines 139-157): no validation; lock the
collection, resolve `dir = root/collection/resource`, probe it with
`stat`; remove the directory tree when the probe found a directory,
remove `dir + ".json"` when it found a regular file, and fail with
"unable to find file or dir" when it found nothing. -/
def Delete (root : String) (fs : FS) (collection resource : String) :
    FS × Option DBErr × List Ev :=
  let path := pjoin collection resource
  let dir := pjoin root path
  match stat fs dir with
  | none => (fs, some DBErr.notFound, [Ev.lock collection, Ev.fs "stat", Ev.unlock collection])
  | some FType.dir =>
    (removeAll fs dir, none,
     [Ev.lock collection, Ev.fs "stat", Ev.fs "remove", Ev.unlock collection])
  | some FType.file =>
    (removeAll fs (dir ++ ".json"), none,
     [Ev.lock collection, Ev.fs "stat", Ev.fs "remove", Ev.unlock collection])

/-- The empty filesystem. -/
def emptyFS : FS := { dirs := [], files := [] }

/-- `New(dir, options)` on an already-clean `dir` (main.go lines 54-74):
keep the filesystem as is when the root exists, otherwise create it with
`MkdirAll`. -/
def NewFS (dir : String) (fs : FS) : Option FS :=
  match osStat fs dir with
  | some _ => some fs
  | none => mkdirAll fs dir

/-- A sequence of `Write` calls into one collection, stopping at the
first failure (as a caller checking each error would). -/
def writeMany (root : String) (fs : FS) (collection : String) :
    List (String × Json) → FS × Option DBErr
  | [] => (fs, none)
  | (r, v) :: rest =>
    let w := Write root fs collection r v
    match w.2.1 with
    | some e => (w.1, some e)
    | none => writeMany root w.1 collection rest

/-- The number of `'\n'` characters a byte string ends with. -/
def trailingNewlines (b : Bytes) : Nat :=
  (b.reverse.takeWhile (fun c => decide (c = '\n'))).length

/-! ## Basic lemmas about the path and filesystem helpers -/

theorem beginsWith_iff (p l : List Char) : beginsWith p l = true ↔ p <+: l := by
  induction p generalizing l with
  | nil => simp [beginsWith]
  | cons a as ih =>
    cases l with
    | nil => simp [beginsWith]
    | cons b bs =>
      simp only [beginsWith, Bool.and_eq_true, decide_eq_true_eq, ih, List.cons_prefix_cons]

theorem string_eq_iff_data {a b : String} : a = b ↔ a.data = b.data :=
  ⟨fun h => h ▸ rfl, String.ext⟩

theorem length_ne_zero_of_ne_empty {t : String} (h : t ≠ "") : t.length ≠ 0 := by
  intro hl
  apply h
  cases t with
  | mk data =>
    cases data with
    | nil => rfl
    | cons c cs => simp [String.length] at hl

theorem append_ne_left {s t : String} (h : t ≠ "") : s ++ t ≠ s := by
  intro he
  have hl := congrArg String.length he
  rw [String.length_append] at hl
  exact length_ne_zero_of_ne_empty h (by omega)

theorem append_ne_empty_right {s t : String} (ht : t ≠ "") : s ++ t ≠ "" := by
  intro h
  have hl := congrArg String.length h
  rw [String.length_append] at hl
  have h0 : ("" : String).length = 0 := rfl
  exact length_ne_zero_of_ne_empty ht (by omega)

theorem pjoin_empty_right (a : String) : pjoin a "" = a := by
  by_cases h : a = "" <;> simp [pjoin, h]

theorem pjoin_empty_left (b : String) : pjoin "" b = b := by simp [pjoin]

theorem pjoin_eq_append {a b : String} (ha : a ≠ "") (hb : b ≠ "") :
    pjoin a b = a ++ "/" ++ b := by simp [pjoin, ha, hb]

theorem pjoin_ne_empty {a b : String} (hb : b ≠ "") : pjoin a b ≠ "" := by
  by_cases ha : a = ""
  · simpa [pjoin, ha] using hb
  · rw [pjoin_eq_append ha hb]
    intro h
    have hl := congrArg String.length h
    rw [String.length_append, String.length_append] at hl
    have h1 : ("/" : String).length = 1 := rfl
    have h0 : ("" : String).length = 0 := rfl
    omega

theorem pjoin_assoc (a b c : String) : pjoin a (pjoin b c) = pjoin (pjoin a b) c := by
  by_cases hb : b = ""
  · subst hb; rw [pjoin_empty_left, pjoin_empty_right]
  by_cases hc : c = ""
  · subst hc; rw [pjoin_empty_right, pjoin_empty_right]
  by_cases ha : a = ""
  · subst ha; rw [pjoin_empty_left, pjoin_empty_left]
  have hbc : pjoin b c ≠ "" := pjoin_ne_empty hc
  have hab : pjoin a b ≠ "" := pjoin_ne_empty hb
  rw [pjoin_eq_append ha hbc, pjoin_eq_append hb hc, pjoin_eq_append hab hc,
    pjoin_eq_append ha hb]
  apply String.ext
  simp only [String.data_append, List.append_assoc]

theorem lookupFile_none_iff {l : List (String × Bytes)} {p : String} :
    lookupFile l p = none ↔ ∀ e ∈ l, e.1 ≠ p := by
  induction l with
  | nil => simp [lookupFile]
  | cons e rest ih =>
    by_cases h : e.1 = p <;> simp [lookupFile, h, ih]

theorem lookupFile_isSome_iff {l : List (String × Bytes)} {p : String} :
    (lookupFile l p).isSome = true ↔ ∃ e ∈ l, e.1 = p := by
  induction l with
  | nil => simp [lookupFile]
  | cons e rest ih =>
    by_cases h : e.1 = p <;> simp [lookupFile, h, ih]

theorem removeFile_eq_self {l : List (String × Bytes)} {p : String}
    (h : ∀ e ∈ l, e.1 ≠ p) : removeFile l p = l := by
  induction l with
  | nil => rfl
  | cons e rest ih =>
    rw [removeFile, if_neg (h e (List.mem_cons_self e rest)),
      ih (fun x hx => h x (List.mem_cons_of_mem e hx))]

theorem lookupFile_removeFile_ne {l : List (String × Bytes)} {p q : String}
    (h : p ≠ q) : lookupFile (removeFile l q) p = lookupFile l p := by
  induction l with
  | nil => rfl
  | cons e rest ih =>
    by_cases he : e.1 = q
    · have hep : e.1 ≠ p := fun hp => h (hp.symm.trans he)
      rw [removeFile, if_pos he, ih, lookupFile, if_neg hep]
    · by_cases hp : e.1 = p
      · rw [removeFile, if_neg he, lookupFile, if_pos hp, lookupFile, if_pos hp]
      · rw [removeFile, if_neg he, lookupFile, if_neg hp, ih, lookupFile, if_neg hp]

theorem lookupFile_removeFile_self (l : List (String × Bytes)) (p : String) :
    lookupFile (removeFile l p) p = none := by
  induction l with
  | nil => rfl
  | cons e rest ih =>
    by_cases he : e.1 = p
    · rw [removeFile, if_pos he, ih]
    · rw [removeFile, if_neg he, lookupFile, if_neg he, ih]

theorem lookupFile_filter_none {l : List (String × Bytes)} {p : String}
    {f : String × Bytes → Bool} (h : ∀ e ∈ l, e.1 = p → f e = false) :
    lookupFile (l.filter f) p = none := by
  rw [lookupFile_none_iff]
  intro e he hp
  have hm := List.mem_filter.mp he
  have := h e hm.1 hp
  rw [this] at hm
  exact Bool.false_ne_true hm.2

theorem lookupFile_filter_of_none {l : List (String × Bytes)} {p : String}
    {f : String × Bytes → Bool} (h : lookupFile l p = none) :
    lookupFile (l.filter f) p = none := by
  rw [lookupFile_none_iff] at h ⊢
  intro e he
  exact h e (List.mem_filter.mp he).1

theorem lookupFile_filter_retained {l : List (String × Bytes)} {q : String} {bq : Bytes}
    {f : String × Bytes → Bool} (h : lookupFile l q = some bq)
    (hf : ∀ e, e.1 = q → f e = true) : lookupFile (l.filter f) q = some bq := by
  induction l with
  | nil => cases h
  | cons e rest ih =>
    by_cases he : e.1 = q
    · rw [lookupFile, if_pos he] at h
      rw [List.filter_cons_of_pos (hf e he), lookupFile, if_pos he]
      exact h
    · rw [lookupFile, if_neg he] at h
      by_cases hfe : f e = true
      · rw [List.filter_cons_of_pos hfe, lookupFile, if_neg he]
        exact ih h
      · rw [List.filter_cons_of_neg (by simpa using hfe)]
        exact ih h

theorem prefix_cancel {l a b : List Char} (h : (l ++ a) <+: (l ++ b)) : a <+: b := by
  rcases h with ⟨t, ht⟩
  rw [List.append_assoc] at ht
  exact ⟨t, List.append_cancel_left ht⟩

theorem lookupFile_of_nodup {l : List (String × Bytes)} {e : String × Bytes}
    (hnd : (l.map Prod.fst).Nodup) (he : e ∈ l) : lookupFile l e.1 = some e.2 := by
  induction l with
  | nil => cases he
  | cons x rest ih =>
    rcases List.mem_cons.mp he with h | h
    · subst h; simp [lookupFile]
    · have hx : x.1 ≠ e.1 := by
        intro hq
        have : e.1 ∈ rest.map Prod.fst := List.mem_map.mpr ⟨e, h, rfl⟩
        rw [List.map_cons, List.nodup_cons] at hnd
        exact hnd.1 (hq ▸ this)
      rw [List.map_cons, List.nodup_cons] at hnd
      simp [lookupFile, hx]
      exact ih hnd.2 h

/-! ## Lemmas about `ancestors` -/

theorem mem_ancChars_pref {pre cs q : List Char} (h : q ∈ ancChars pre cs) :
    q <+: pre ++ cs := by
  induction cs generalizing pre with
  | nil =>
    simp [ancChars] at h
    subst h
    simp
  | cons c rest ih =>
    rw [ancChars] at h
    by_cases hc : c = '/'
    · rw [if_pos hc] at h
      rcases List.mem_cons.mp h with h | h
      · subst h; exact ⟨c :: rest, rfl⟩
      · have := ih h
        rwa [List.append_assoc, List.singleton_append] at this
    · rw [if_neg hc] at h
      have := ih h
      rwa [List.append_assoc, List.singleton_append] at this

theorem self_mem_ancChars (pre cs : List Char) : pre ++ cs ∈ ancChars pre cs := by
  induction cs generalizing pre with
  | nil => simp [ancChars]
  | cons c rest ih =>
    rw [ancChars]
    have h : pre ++ c :: rest = (pre ++ [c]) ++ rest := by
      rw [List.append_assoc, List.singleton_append]
    by_cases hc : c = '/'
    · rw [if_pos hc, h]
      exact List.mem_cons_of_mem _ (ih (pre ++ [c]))
    · rw [if_neg hc, h]
      exact ih (pre ++ [c])

theorem mem_ancestors_length_le {p d : String} (h : d ∈ ancestors p) :
    d.length ≤ p.length := by
  rcases List.mem_map.mp h with ⟨cs, hcs, hd⟩
  have h2 := (mem_ancChars_pref hcs).length_le
  rw [List.nil_append] at h2
  subst hd
  exact h2

theorem self_mem_ancestors (p : String) : p ∈ ancestors p := by
  rw [ancestors]
  refine List.mem_map.mpr ⟨p.data, by simpa using self_mem_ancChars [] p.data, ?_⟩
  cases p
  rfl

/-! ## Lemmas about the marshalled output -/

theorem getLast?_of_ne_nil {α : Type} {l : List α} (h : l ≠ []) :
    ∃ a, l.getLast? = some a := by
  rcases Option.isSome_iff_exists.mp (List.getLast?_isSome.mpr h) with ⟨a, ha⟩
  exact ⟨a, ha⟩

theorem string_append_data_getLast {s t : String} (h : t ≠ "") :
    (s ++ t).data.getLast? = t.data.getLast? := by
  have ht : t.data ≠ [] := by
    intro hd
    exact h (String.ext hd)
  rw [String.data_append, List.getLast?_append]
  rcases getLast?_of_ne_nil ht with ⟨a, ha⟩
  rw [ha]
  rfl

/-- Every character of a string accepted by `isValidNumber` is a digit,
sign, dot or exponent letter. -/
def numChar (c : Char) : Prop :=
  c.isDigit ∨ c = '-' ∨ c = '+' ∨ c = '.' ∨ c = 'e' ∨ c = 'E'

instance numChar.instDecidable (c : Char) : Decidable (numChar c) := by
  unfold numChar
  exact inferInstance

theorem mem_dropWhile_digit {cs : List Char} {c : Char}
    (h : c ∈ cs.dropWhile Char.isDigit) : c ∈ cs :=
  (List.dropWhile_sublist Char.isDigit (l := cs)).subset h

theorem digits_before_dropWhile {cs : List Char} {c : Char} (hc : c ∈ cs) :
    c.isDigit ∨ c ∈ cs.dropWhile Char.isDigit := by
  rw [← List.takeWhile_append_dropWhile Char.isDigit cs] at hc
  rcases List.mem_append.mp hc with h | h
  · exact Or.inl (List.mem_takeWhile_imp h)
  · exact Or.inr h

theorem numExp_chars {cs : List Char} (h : numExp cs = true) : ∀ c ∈ cs, numChar c := by
  match cs with
  | [] => intro c hc; cases hc
  | [x] => exact fun c hc => absurd h Bool.false_ne_true
  | e :: c2 :: rest =>
    simp only [numExp] at h
    by_cases he : e = 'e' ∨ e = 'E'
    · rw [if_pos he] at h
      rcases Bool.and_eq_true _ _ |>.mp h with ⟨_, h2⟩
      have hdig : ∀ x ∈ (if c2 = '+' ∨ c2 = '-' then rest else c2 :: rest), x.isDigit := by
        intro x hx
        exact List.dropWhile_eq_nil_iff.mp (List.isEmpty_iff.mp h2) x hx
      intro c hc
      rcases List.mem_cons.mp hc with rfl | hc2
      · rcases he with h' | h' <;> simp [numChar, h']
      · by_cases hsign : c2 = '+' ∨ c2 = '-'
        · rcases List.mem_cons.mp hc2 with rfl | hcr
          · rcases hsign with h' | h' <;> simp [numChar, h']
          · exact Or.inl (hdig c (by rwa [if_pos hsign]))
        · exact Or.inl (hdig c (by rwa [if_neg hsign]))
    · rw [if_neg he] at h
      cases h

theorem numFrac_chars {cs : List Char} (h : numFrac cs = true) : ∀ c ∈ cs, numChar c := by
  match cs with
  | [] => intro c hc; cases hc
  | [x] => exact numExp_chars h
  | c1 :: c2 :: rest =>
    simp only [numFrac] at h
    by_cases hcond : c1 = '.' ∧ c2.isDigit
    · rw [if_pos hcond] at h
      intro c hc
      rcases List.mem_cons.mp hc with rfl | hc2
      · simp [numChar, hcond.1]
      rcases List.mem_cons.mp hc2 with rfl | hcr
      · exact Or.inl hcond.2
      · rcases digits_before_dropWhile hcr with h' | h'
        · exact Or.inl h'
        · exact numExp_chars h c h'
    · rw [if_neg hcond] at h
      exact numExp_chars h

theorem numInt_chars {cs : List Char} (h : numInt cs = true) : ∀ c ∈ cs, numChar c := by
  match cs with
  | [] => intro c hc; cases hc
  | c' :: rest =>
    simp only [numInt] at h
    intro x hx
    by_cases h0 : c' = '0'
    · rw [if_pos h0] at h
      rcases List.mem_cons.mp hx with rfl | hxr
      · subst h0; simp [numChar]
      · exact numFrac_chars h x hxr
    · rw [if_neg h0] at h
      by_cases hd : c'.isDigit
      · rw [if_pos hd] at h
        rcases List.mem_cons.mp hx with rfl | hxr
        · exact Or.inl hd
        · rcases digits_before_dropWhile hxr with h' | h'
          · exact Or.inl h'
          · exact numFrac_chars h x h'
      · rw [if_neg hd] at h
        cases h

theorem numStart_chars {cs : List Char} (h : numStart cs = true) : ∀ c ∈ cs, numChar c := by
  match cs with
  | [] => intro c hc; cases hc
  | c0 :: rest0 =>
    simp only [numStart] at h
    intro c hc
    by_cases hneg : c0 = '-'
    · rw [if_pos hneg] at h
      rcases List.mem_cons.mp hc with rfl | hcr
      · simp [numChar, hneg]
      · exact numInt_chars h c hcr
    · rw [if_neg hneg] at h
      exact numInt_chars h c hc

theorem isValidNumber_chars {s : String} (h : isValidNumber s = true) :
    ∀ c ∈ s.data, numChar c :=
  numStart_chars h

/-- A successfully marshalled value is nonempty and does not end with a
newline: scalars end with a letter, digit, quote or number character, and
compound values end with their closing bracket. -/
theorem marshalVal_ok_last {d : Nat} {v : Json} {b : Bytes}
    (h : marshalVal d v = Except.ok b) : b ≠ [] ∧ b.getLast? ≠ some '\n' := by
  cases v with
  | null =>
    simp only [marshalVal] at h
    cases h
    exact ⟨by decide, by decide⟩
  | bool bb =>
    cases bb <;> simp only [marshalVal] at h <;> cases h <;> exact ⟨by decide, by decide⟩
  | num s =>
    simp only [marshalVal] at h
    by_cases hv : isValidNumber s
    · rw [if_pos hv] at h
      cases h
      constructor
      · intro hd
        rw [isValidNumber, hd] at hv
        cases hv
      · intro hl
        have hmem : '\n' ∈ s.data := List.mem_of_mem_getLast? hl
        exact absurd (isValidNumber_chars hv '\n' hmem) (by decide)
    · rw [if_neg hv] at h
      cases h
  | str s =>
    simp only [marshalVal] at h
    cases h
    refine ⟨by simp [quote], ?_⟩
    rw [quote, List.getLast?_concat]
    decide
  | arr elems =>
    cases elems with
    | nil =>
      simp only [marshalVal] at h
      cases h
      exact ⟨by decide, by decide⟩
    | cons x xs =>
      simp only [marshalVal] at h
      cases hE : marshalArr (d + 1) (x :: xs) with
      | error e => rw [hE] at h; cases h
      | ok items =>
        rw [hE] at h
        simp only at h
        cases h
        constructor
        · simp
        · have hsh : '[' :: '\n' :: items ++ '\n' :: tabs d ++ [']'] =
              ('[' :: '\n' :: (items ++ '\n' :: tabs d)) ++ [']'] := by simp
          rw [hsh, List.getLast?_concat]
          decide
  | obj fields =>
    cases fields with
    | nil =>
      simp only [marshalVal] at h
      cases h
      exact ⟨by decide, by decide⟩
    | cons f fs =>
      simp only [marshalVal] at h
      cases hE : marshalObj (d + 1) (f :: fs) with
      | error e => rw [hE] at h; cases h
      | ok items =>
        rw [hE] at h
        simp only at h
        cases h
        constructor
        · simp
        · have hsh : '\x7b' :: '\n' :: items ++ '\n' :: tabs d ++ ['\x7d'] =
              ('\x7b' :: '\n' :: (items ++ '\n' :: tabs d)) ++ ['\x7d'] := by simp
          rw [hsh, List.getLast?_concat]
          decide

theorem marshalIndent_ok_last {v : Json} {b : Bytes}
    (h : marshalIndent v = Except.ok b) : b ≠ [] ∧ b.getLast? ≠ some '\n' :=
  marshalVal_ok_last h

/-- Appending one newline to a string that does not end with a newline
yields exactly one trailing newline. -/
theorem trailingNewlines_append_one {b : Bytes} (hl : b.getLast? ≠ some '\n') :
    trailingNewlines (b ++ ['\n']) = 1 := by
  rw [trailingNewlines, List.reverse_append]
  simp only [List.reverse_cons, List.reverse_nil, List.nil_append, List.singleton_append]
  rw [List.takeWhile_cons_of_pos (by decide)]
  cases hbr : b.reverse with
  | nil => simp
  | cons y ys =>
    have hy' : b.getLast? = some y := by rw [← List.head?_reverse, hbr]; rfl
    have hy : y ≠ '\n' := fun hy => hl (by rw [hy', hy])
    rw [List.takeWhile_cons_of_neg (by simpa using hy)]
    simp

theorem underPath_self (p : String) : underPath p p = true := by simp [underPath]

theorem lookupMutex_none_iff {l : List (String × Nat)} {c : String} :
    lookupMutex l c = none ↔ ∀ e ∈ l, e.1 ≠ c := by
  induction l with
  | nil => simp [lookupMutex]
  | cons e rest ih =>
    by_cases h : e.1 = c <;> simp [lookupMutex, h, ih]

/-! ## The claims -/

/-- C1: the claim states that for non-empty collection and resource names
and a serializable value, `Write(C,R,V)` followed by `Read(C,R,out)`
succeeds and yields `out` deep-equal to `V`.  The code violates this:
`Read` resolves `record = root/C/R.json`, probes it successfully, but
then opens `record + ".json"` = `root/C/R.json.json`, which the write
never created, so the read fails with a not-found error instead of
returning the value.  This theorem evaluates the model at such an input:
the write succeeds and creates `db/users/John.json`, yet the read of the
same collection and resource fails. -/
theorem write_then_read_fails :
    (Write "db" { dirs := ["db"], files := [] } "users" "John"
        (Json.obj [("Name", Json.str "John"), ("Age", Json.num "30")])).2.1 = none
  ∧ (lookupFile (Write "db" { dirs := ["db"], files := [] } "users" "John"
        (Json.obj [("Name", Json.str "John"), ("Age", Json.num "30")])).1.files
        "db/users/John.json").isSome = true
  ∧ (Read "db" (Write "db" { dirs := ["db"], files := [] } "users" "John"
        (Json.obj [("Name", Json.str "John"), ("Age", Json.num "30")])).1
        "users" "John").2.1 = Except.error DBErr.notFound :=
  ⟨rfl, rfl, rfl⟩

/-- C6: `Write("", R, V)` and `Write(C, "", V)` both fail with a
validation error, perform no filesystem access (the event trace is
empty, in particular no lock is taken and nothing is created), and
leave the filesystem unchanged. -/
theorem Write_rejects_empty_names (root : String) (fs : FS) (c r : String) (v : Json) :
    ((Write root fs "" r v).1 = fs
      ∧ (Write root fs "" r v).2.2 = []
      ∧ (∃ m, (Write root fs "" r v).2.1 = some (DBErr.validation m)))
  ∧ ((Write root fs c "" v).1 = fs
      ∧ (Write root fs c "" v).2.2 = []
      ∧ (∃ m, (Write root fs c "" v).2.1 = some (DBErr.validation m))) := by
  constructor
  · exact ⟨rfl, rfl, ⟨_, rfl⟩⟩
  · by_cases hc : c = ""
    · subst hc
      exact ⟨rfl, rfl, ⟨_, rfl⟩⟩
    · refine ⟨?_, ?_, ⟨"missing resource - unable to save record (no name)", ?_⟩⟩ <;>
        simp [Write, hc]

/-- C5: `Delete` validates nothing.  `Delete("", "")` resolves its probe
path to the store's root directory itself, succeeds (no validation
error), and removes the entire root directory with every collection and
resource under it. -/
theorem Delete_empty_empty_removes_root (root : String) (fs : FS)
    (hroot : root ∈ fs.dirs)
    (hall : ∀ e ∈ fs.files, underPath root e.1 = true) :
    pjoin root (pjoin "" "") = root
  ∧ (Delete root fs "" "").2.1 = none
  ∧ (Delete root fs "" "").1.files = []
  ∧ root ∉ (Delete root fs "" "").1.dirs := by
  have hp : pjoin root (pjoin "" "") = root := by
    rw [pjoin_empty_right, pjoin_empty_right]
  have hstat : stat fs (pjoin root (pjoin "" "")) = some FType.dir := by
    rw [hp]
    simp [stat, osStat, hroot]
  refine ⟨hp, ?_, ?_, ?_⟩
  · simp [Delete, hstat]
  · simp only [Delete, hstat, removeAll]
    rw [List.filter_eq_nil_iff]
    intro e he
    rw [hp]
    simp [hall e he]
  · simp only [Delete, hstat, removeAll]
    intro hmem
    have := (List.mem_filter.mp hmem).2
    rw [hp] at this
    simp [underPath_self] at this

/-- Witness for C5 at a concrete input: a store with one collection
holding one resource. -/
theorem Delete_empty_empty_removes_root_witness :
    (("db" : String) ∈ (FS.mk ["db", "db/users"] [("db/users/John.json", ['x'])]).dirs
      ∧ ∀ e ∈ (FS.mk ["db", "db/users"] [("db/users/John.json", ['x'])]).files,
          underPath "db" e.1 = true)
  ∧ (pjoin "db" (pjoin "" "") = "db"
    ∧ (Delete "db" (FS.mk ["db", "db/users"] [("db/users/John.json", ['x'])]) "" "").2.1 = none
    ∧ (Delete "db" (FS.mk ["db", "db/users"] [("db/users/John.json", ['x'])]) "" "").1.files = []
    ∧ ("db" : String) ∉
        (Delete "db" (FS.mk ["db", "db/users"] [("db/users/John.json", ['x'])]) "" "").1.dirs) :=
  ⟨⟨by decide, by decide⟩,
    Delete_empty_empty_removes_root "db"
      (FS.mk ["db", "db/users"] [("db/users/John.json", ['x'])]) (by decide) (by decide)⟩

/-- C7: reading a resource that does not exist on disk (the probe finds
neither `root/C/R.json` nor its `.json`-suffixed variant) fails with a
not-found condition, changes no filesystem state, and performs only the
probing stat — so the output target is never written to and nothing is
created. -/
theorem Read_missing_resource_notFound (root : String) (fs : FS) (c r : String)
    (hc : c ≠ "") (hr : r ≠ "")
    (habs : stat fs (pjoin (pjoin root c) (r ++ ".json")) = none) :
    Read root fs c r = (fs, Except.error DBErr.notFound, [Ev.fs "stat"]) := by
  simp [Read, hc, hr, habs]

/-- Witness for C7 at a concrete input: an empty store. -/
theorem Read_missing_resource_notFound_witness :
    (("users" : String) ≠ "" ∧ ("John" : String) ≠ ""
      ∧ stat emptyFS (pjoin (pjoin "db" "users") ("John" ++ ".json")) = none)
  ∧ Read "db" emptyFS "users" "John" =
      (emptyFS, Except.error DBErr.notFound, [Ev.fs "stat"]) :=
  ⟨⟨by decide, by decide, by decide⟩,
    Read_missing_resource_notFound "db" emptyFS "users" "John"
      (by decide) (by decide) (by decide)⟩

/-- C9: the mutex registry returns one lock per collection name.  A call
for an unregistered name creates and stores a fresh lock; any call for a
registered name returns exactly the stored lock and leaves the registry
unchanged — in particular a second call after any first call returns the
same lock instance — and registering preserves at-most-one-entry-per-name. -/
theorem getOrCreateMutex_spec (reg : Registry) (c : String) :
    getOrCreateMutex (getOrCreateMutex reg c).1 c = getOrCreateMutex reg c
  ∧ (lookupMutex reg.entries c = none →
      (getOrCreateMutex reg c).1.entries = (c, reg.next) :: reg.entries
        ∧ (getOrCreateMutex reg c).2 = reg.next)
  ∧ (∀ m, lookupMutex reg.entries c = some m → getOrCreateMutex reg c = (reg, m))
  ∧ ((reg.entries.map Prod.fst).Nodup →
      ((getOrCreateMutex reg c).1.entries.map Prod.fst).Nodup) := by
  cases hl : lookupMutex reg.entries c with
  | none =>
    refine ⟨?_, ?_, ?_, ?_⟩
    · simp [getOrCreateMutex, hl, lookupMutex]
    · intro _
      exact ⟨by simp [getOrCreateMutex, hl], by simp [getOrCreateMutex, hl]⟩
    · intro m hm
      exact Option.noConfusion hm
    · intro hnd
      have hnotin : c ∉ reg.entries.map Prod.fst := by
        intro hmem
        rcases List.mem_map.mp hmem with ⟨e, he, hec⟩
        exact lookupMutex_none_iff.mp hl e he hec
      simp only [getOrCreateMutex, hl, List.map_cons, List.nodup_cons]
      exact ⟨hnotin, hnd⟩
  | some m =>
    refine ⟨?_, ?_, ?_, ?_⟩
    · simp [getOrCreateMutex, hl]
    · intro hn
      exact Option.noConfusion hn
    · intro m' hm'
      obtain rfl : m = m' := Option.some.inj hm'
      simp [getOrCreateMutex, hl]
    · intro hnd
      simpa [getOrCreateMutex, hl] using hnd

/-- Witness for C9 at a concrete input: the fresh registry of a new
driver and collection name `"users"`. -/
theorem getOrCreateMutex_spec_witness :
    getOrCreateMutex (getOrCreateMutex { entries := [], next := 0 } "users").1 "users"
        = getOrCreateMutex { entries := [], next := 0 } "users"
  ∧ (lookupMutex (Registry.mk [] 0).entries "users" = none →
      (getOrCreateMutex { entries := [], next := 0 } "users").1.entries
          = ("users", (Registry.mk [] 0).next) :: (Registry.mk [] 0).entries
        ∧ (getOrCreateMutex { entries := [], next := 0 } "users").2 = (Registry.mk [] 0).next)
  ∧ (∀ m, lookupMutex (Registry.mk [] 0).entries "users" = some m →
      getOrCreateMutex { entries := [], next := 0 } "users" = ({ entries := [], next := 0 }, m))
  ∧ (((Registry.mk [] 0).entries.map Prod.fst).Nodup →
      ((getOrCreateMutex { entries := [], next := 0 } "users").1.entries.map Prod.fst).Nodup) :=
  getOrCreateMutex_spec { entries := [], next := 0 } "users"

/-- C3, counterexample: the claim also covers resource names given with
their `.json` extension, which the probe can locate.  But when `stat`
finds `root/C/R.json` directly (here the caller passed `"John.json"`),
`Delete` removes `path + ".json"` = `root/C/John.json.json` — a path
where nothing exists — so it reports success while the resource file
`db/users/John.json` is left fully intact, contradicting "removes
exactly the file of resource R". -/
theorem Delete_extensioned_name_misses_file :
    (Delete "db"
        { dirs := ["db", "db/users"], files := [("db/users/John.json", ['x'])] }
        "users" "John.json").2.1 = none
  ∧ (Delete "db"
        { dirs := ["db", "db/users"], files := [("db/users/John.json", ['x'])] }
        "users" "John.json").1.files = [("db/users/John.json", ['x'])] :=
  ⟨rfl, rfl⟩

/-- C10, counterexample: the claim states that every public operation
acquires the collection's lock before its I/O.  `Read` and `ReadAll` in
the source never touch the mutex registry: on a store holding one
written resource both perform their filesystem accesses with no lock or
unlock event in their traces. -/
theorem readers_take_no_lock :
    (Read "db" { dirs := ["db", "db/users"], files := [("db/users/John.json", ['x'])] }
        "users" "John").2.2 = [Ev.fs "stat", Ev.fs "readfile"]
  ∧ (ReadAll "db" { dirs := ["db", "db/users"], files := [("db/users/John.json", ['x'])] }
        "users").2.2 = [Ev.fs "stat", Ev.fs "readdir", Ev.fs "readfile"]
  ∧ ∀ op c', Ev.fs op ≠ Ev.lock c' ∧ Ev.fs op ≠ Ev.unlock c' :=
  ⟨rfl, rfl, fun _ _ => ⟨fun h => Ev.noConfusion h, fun h => Ev.noConfusion h⟩⟩

/-- C10, amended: only `Write` and `Delete` acquire the collection's
exclusive lock before path resolution and I/O and release it afterwards
(for `Write`, once validation passed); `Read` and `ReadAll` perform
their filesystem accesses without any locking, so only writes and
deletes on the same collection are serialized against each other. -/
theorem lock_discipline (root : String) :
    (∀ (fs : FS) (c r : String) (v : Json), c ≠ "" → r ≠ "" →
      ∃ mid, (Write root fs c r v).2.2 = Ev.lock c :: mid ++ [Ev.unlock c]
        ∧ ∀ e ∈ mid, ∃ op, e = Ev.fs op)
  ∧ (∀ (fs : FS) (c r : String),
      ∃ mid, (Delete root fs c r).2.2 = Ev.lock c :: mid ++ [Ev.unlock c]
        ∧ ∀ e ∈ mid, ∃ op, e = Ev.fs op)
  ∧ (∀ (fs : FS) (c r : String), ∀ e ∈ (Read root fs c r).2.2, ∃ op, e = Ev.fs op)
  ∧ (∀ (fs : FS) (c : String), ∀ e ∈ (ReadAll root fs c).2.2, ∃ op, e = Ev.fs op) := by
  refine ⟨?_, ?_, ?_, ?_⟩
  · intro fs c r v hc hr
    cases hmk : mkdirAll fs (pjoin root c) with
    | none => exact ⟨[Ev.fs "mkdir"], by simp [Write, hc, hr, hmk], by simp⟩
    | some fs1 =>
      cases hm : marshalIndent v with
      | error e => exact ⟨[Ev.fs "mkdir"], by simp [Write, hc, hr, hmk, hm], by simp⟩
      | ok b =>
        cases hw : writeFile fs1 (pjoin (pjoin root c) (r ++ ".json") ++ ".tmp") (b ++ ['\n']) with
        | none =>
          exact ⟨[Ev.fs "mkdir", Ev.fs "write"], by simp [Write, hc, hr, hmk, hm, hw], by simp⟩
        | some fs2 =>
          cases hrn : rename fs2 (pjoin (pjoin root c) (r ++ ".json") ++ ".tmp")
              (pjoin (pjoin root c) (r ++ ".json")) with
          | none =>
            exact ⟨[Ev.fs "mkdir", Ev.fs "write", Ev.fs "rename"],
              by simp [Write, hc, hr, hmk, hm, hw, hrn], by simp⟩
          | some fs3 =>
            exact ⟨[Ev.fs "mkdir", Ev.fs "write", Ev.fs "rename"],
              by simp [Write, hc, hr, hmk, hm, hw, hrn], by simp⟩
  · intro fs c r
    cases hst : stat fs (pjoin root (pjoin c r)) with
    | none => exact ⟨[Ev.fs "stat"], by simp [Delete, hst], by simp⟩
    | some fi =>
      cases fi with
      | dir => exact ⟨[Ev.fs "stat", Ev.fs "remove"], by simp [Delete, hst], by simp⟩
      | file => exact ⟨[Ev.fs "stat", Ev.fs "remove"], by simp [Delete, hst], by simp⟩
  · intro fs c r e he
    by_cases hc : c = ""
    · simp [Read, hc] at he
    by_cases hr : r = ""
    · simp [Read, hc, hr] at he
    simp only [Read, if_neg hc, if_neg hr] at he
    split at he
    · simp at he
      exact ⟨"stat", he⟩
    split at he <;> (simp at he; rcases he with rfl | rfl) <;> exact ⟨_, rfl⟩
  · intro fs c e he
    by_cases hc : c = ""
    · simp [ReadAll, hc] at he
    simp only [ReadAll, if_neg hc] at he
    split at he
    · simp at he
      exact ⟨"stat", he⟩
    split at he
    · simp at he
      rcases he with rfl | rfl <;> exact ⟨_, rfl⟩
    split at he <;> (simp at he; rcases he with rfl | rfl | ⟨x, hx, rfl⟩) <;> exact ⟨_, rfl⟩

/-- Witness for C10's amended theorem at a concrete input: a `Write`
into a fresh store. -/
theorem lock_discipline_witness :
    ∃ mid, (Write "db" emptyFS "users" "John" Json.null).2.2
        = Ev.lock "users" :: mid ++ [Ev.unlock "users"]
      ∧ ∀ e ∈ mid, ∃ op, e = Ev.fs op :=
  (lock_discipline "db").1 emptyFS "users" "John" Json.null (by decide) (by decide)

/-- An inversion lemma for `osStat`. -/
theorem osStat_eq_none_iff {fs : FS} {p : String} :
    osStat fs p = none ↔ p ∉ fs.dirs ∧ lookupFile fs.files p = none := by
  unfold osStat
  by_cases h1 : p ∈ fs.dirs
  · simp [h1]
  · by_cases h2 : (lookupFile fs.files p).isSome
    · simp only [h1, if_false, h2, if_true]
      constructor
      · intro h
        cases h
      · intro h
        rw [h.2] at h2
        cases h2
    · simp only [h1, if_false, h2, if_false]
      rw [Option.not_isSome_iff_eq_none] at h2
      simp [h2, h1]

/-- C4: deleting with an empty resource name resolves to the collection
directory itself (`pjoin c "" = c`), so `Delete(C, "")` succeeds and
removes the collection directory with every resource file under it;
a subsequent `ReadAll(C)` fails with a not-found condition.  The
hypothesis `hjson` states that the store holds no stray node at
`root/C.json`, which `stat`'s fallback probe would otherwise find. -/
theorem Delete_empty_resource_removes_collection (root : String) (fs : FS) (c : String)
    (hc : c ≠ "")
    (hdir : pjoin root c ∈ fs.dirs)
    (hjson : osStat fs (pjoin root c ++ ".json") = none) :
    (Delete root fs c "").2.1 = none
  ∧ pjoin root c ∉ (Delete root fs c "").1.dirs
  ∧ (∀ q, underPath (pjoin root c) q = true →
      lookupFile (Delete root fs c "").1.files q = none)
  ∧ (ReadAll root (Delete root fs c "").1 c).2.1 = Except.error DBErr.notFound := by
  have hpath : pjoin root (pjoin c "") = pjoin root c := by rw [pjoin_empty_right]
  have hstat : stat fs (pjoin root (pjoin c "")) = some FType.dir := by
    rw [hpath]
    simp [stat, osStat, hdir]
  have hdel : Delete root fs c "" =
      (removeAll fs (pjoin root (pjoin c "")), none,
        [Ev.lock c, Ev.fs "stat", Ev.fs "remove", Ev.unlock c]) := by
    simp [Delete, hstat]
  have hdirs : pjoin root c ∉ (Delete root fs c "").1.dirs := by
    rw [hdel]
    intro hmem
    have := (List.mem_filter.mp hmem).2
    rw [hpath] at this
    simp [underPath_self] at this
  have hfiles : ∀ q, underPath (pjoin root c) q = true →
      lookupFile (Delete root fs c "").1.files q = none := by
    intro q hq
    rw [hdel]
    apply lookupFile_filter_none
    intro e _ hep
    rw [hpath, hep, hq]
    rfl
  refine ⟨by rw [hdel], hdirs, hfiles, ?_⟩
  have hstat' : stat (Delete root fs c "").1 (pjoin root c) = none := by
    rw [stat]
    have h1 : osStat (Delete root fs c "").1 (pjoin root c) = none := by
      rw [osStat_eq_none_iff]
      exact ⟨hdirs, hfiles _ (underPath_self _)⟩
    rw [h1]
    rw [osStat_eq_none_iff]
    constructor
    · rw [hdel]
      intro hmem
      have := (List.mem_filter.mp hmem).1
      exact (osStat_eq_none_iff.mp hjson).1 this
    · rw [hdel]
      exact lookupFile_filter_of_none (osStat_eq_none_iff.mp hjson).2
  simp [ReadAll, hc, hstat']

/-- Witness for C4 at a concrete input: a store with one collection
holding one resource. -/
theorem Delete_empty_resource_removes_collection_witness :
    (("users" : String) ≠ ""
      ∧ pjoin "db" "users" ∈
          (FS.mk ["db", "db/users"] [("db/users/John.json", ['x'])]).dirs
      ∧ osStat (FS.mk ["db", "db/users"] [("db/users/John.json", ['x'])])
          (pjoin "db" "users" ++ ".json") = none)
  ∧ ((Delete "db" (FS.mk ["db", "db/users"] [("db/users/John.json", ['x'])]) "users" "").2.1 = none
    ∧ pjoin "db" "users" ∉
        (Delete "db" (FS.mk ["db", "db/users"] [("db/users/John.json", ['x'])]) "users" "").1.dirs
    ∧ (∀ q, underPath (pjoin "db" "users") q = true →
        lookupFile
          (Delete "db" (FS.mk ["db", "db/users"] [("db/users/John.json", ['x'])]) "users" "").1.files
          q = none)
    ∧ (ReadAll "db"
        (Delete "db" (FS.mk ["db", "db/users"] [("db/users/John.json", ['x'])]) "users" "").1
        "users").2.1 = Except.error DBErr.notFound) :=
  ⟨⟨by decide, by decide, by decide⟩,
    Delete_empty_resource_removes_collection "db"
      (FS.mk ["db", "db/users"] [("db/users/John.json", ['x'])]) "users"
      (by decide) (by decide) (by decide)⟩

/-- C2: a successful `Write(C,R,V)` serializes `V` with `MarshalIndent`
and one appended newline (so the content has exactly one trailing
newline byte), writes those bytes to the temporary sibling path
`root/C/R.json.tmp` — leaving the final path untouched at that point —
and then commits by renaming the temporary file onto the final path
`root/C/R.json`, after which the final file holds exactly the one
complete serialization and the temporary file is gone. -/
theorem Write_commits_via_tmp_rename (root : String) (fs fs1 : FS) (c r : String)
    (v : Json) (b : Bytes)
    (hc : c ≠ "") (hr : r ≠ "")
    (hm : marshalIndent v = Except.ok b)
    (hmk : mkdirAll fs (pjoin root c) = some fs1)
    (htmp : pjoin (pjoin root c) (r ++ ".json") ++ ".tmp" ∉ fs1.dirs)
    (hfnl : pjoin (pjoin root c) (r ++ ".json") ∉ fs1.dirs) :
    pjoin (pjoin root c) (r ++ ".json") ++ ".tmp" = pjoin (pjoin root c) (r ++ ".json.tmp")
  ∧ trailingNewlines (b ++ ['\n']) = 1
  ∧ ∃ fs2, writeFile fs1 (pjoin (pjoin root c) (r ++ ".json") ++ ".tmp") (b ++ ['\n']) = some fs2
      ∧ lookupFile fs2.files (pjoin (pjoin root c) (r ++ ".json"))
          = lookupFile fs1.files (pjoin (pjoin root c) (r ++ ".json"))
      ∧ lookupFile fs2.files (pjoin (pjoin root c) (r ++ ".json") ++ ".tmp") = some (b ++ ['\n'])
      ∧ ∃ fs3, rename fs2 (pjoin (pjoin root c) (r ++ ".json") ++ ".tmp")
            (pjoin (pjoin root c) (r ++ ".json")) = some fs3
          ∧ Write root fs c r v = (fs3, none,
              [Ev.lock c, Ev.fs "mkdir", Ev.fs "write", Ev.fs "rename", Ev.unlock c])
          ∧ lookupFile fs3.files (pjoin (pjoin root c) (r ++ ".json")) = some (b ++ ['\n'])
          ∧ lookupFile fs3.files (pjoin (pjoin root c) (r ++ ".json") ++ ".tmp") = none := by
  have hdir : pjoin root c ≠ "" := pjoin_ne_empty hc
  have hjs : (r ++ ".json" : String) ≠ "" := append_ne_empty_right (by decide)
  have hjt : (r ++ ".json.tmp" : String) ≠ "" := append_ne_empty_right (by decide)
  have hne : pjoin (pjoin root c) (r ++ ".json") ++ ".tmp" ≠ pjoin (pjoin root c) (r ++ ".json") :=
    append_ne_left (by decide)
  constructor
  · rw [pjoin_eq_append hdir hjs, pjoin_eq_append hdir hjt]
    apply String.ext
    simp only [String.data_append, List.append_assoc]
    rfl
  constructor
  · exact trailingNewlines_append_one (marshalIndent_ok_last hm).2
  refine ⟨{ fs1 with files :=
      (pjoin (pjoin root c) (r ++ ".json") ++ ".tmp", b ++ ['\n'])
        :: removeFile fs1.files (pjoin (pjoin root c) (r ++ ".json") ++ ".tmp") },
    by rw [writeFile, if_neg htmp], ?_, ?_, ?_⟩
  · rw [lookupFile, if_neg hne]
    exact lookupFile_removeFile_ne (fun h => hne h.symm)
  · rw [lookupFile, if_pos rfl]
  have hlk : lookupFile
      ((pjoin (pjoin root c) (r ++ ".json") ++ ".tmp", b ++ ['\n'])
        :: removeFile fs1.files (pjoin (pjoin root c) (r ++ ".json") ++ ".tmp"))
      (pjoin (pjoin root c) (r ++ ".json") ++ ".tmp") = some (b ++ ['\n']) := by
    rw [lookupFile, if_pos rfl]
  refine ⟨FS.mk fs1.dirs
      ((pjoin (pjoin root c) (r ++ ".json"), b ++ ['\n']) ::
        removeFile
          (removeFile
            ((pjoin (pjoin root c) (r ++ ".json") ++ ".tmp", b ++ ['\n']) ::
              removeFile fs1.files (pjoin (pjoin root c) (r ++ ".json") ++ ".tmp"))
            (pjoin (pjoin root c) (r ++ ".json") ++ ".tmp"))
          (pjoin (pjoin root c) (r ++ ".json"))),
    by simp only [rename, hlk, if_neg hfnl], ?_, ?_, ?_⟩
  · simp only [Write, if_neg hc, if_neg hr, hmk, hm, writeFile, if_neg htmp,
      rename, hlk, if_neg hfnl]
  · rw [lookupFile, if_pos rfl]
  · rw [lookupFile, if_neg (Ne.symm hne), lookupFile_removeFile_ne hne]
    exact lookupFile_removeFile_self _ _

/-- Witness for C2 at a concrete input: writing `null` as resource
`John` of collection `users` into a fresh store rooted at `db`. -/
theorem Write_commits_via_tmp_rename_witness :
    (("users" : String) ≠ "" ∧ ("John" : String) ≠ ""
      ∧ marshalIndent Json.null = Except.ok ['n', 'u', 'l', 'l']
      ∧ mkdirAll (FS.mk ["db"] []) (pjoin "db" "users") = some (FS.mk ["db/users", "db"] [])
      ∧ pjoin (pjoin "db" "users") ("John" ++ ".json") ++ ".tmp"
          ∉ (FS.mk ["db/users", "db"] []).dirs
      ∧ pjoin (pjoin "db" "users") ("John" ++ ".json") ∉ (FS.mk ["db/users", "db"] []).dirs)
  ∧ (pjoin (pjoin "db" "users") ("John" ++ ".json") ++ ".tmp"
        = pjoin (pjoin "db" "users") ("John" ++ ".json.tmp")
    ∧ trailingNewlines (['n', 'u', 'l', 'l'] ++ ['\n']) = 1
    ∧ ∃ fs2, writeFile (FS.mk ["db/users", "db"] [])
          (pjoin (pjoin "db" "users") ("John" ++ ".json") ++ ".tmp")
          (['n', 'u', 'l', 'l'] ++ ['\n']) = some fs2
        ∧ lookupFile fs2.files (pjoin (pjoin "db" "users") ("John" ++ ".json"))
            = lookupFile (FS.mk ["db/users", "db"] []).files
                (pjoin (pjoin "db" "users") ("John" ++ ".json"))
        ∧ lookupFile fs2.files (pjoin (pjoin "db" "users") ("John" ++ ".json") ++ ".tmp")
            = some (['n', 'u', 'l', 'l'] ++ ['\n'])
        ∧ ∃ fs3, rename fs2 (pjoin (pjoin "db" "users") ("John" ++ ".json") ++ ".tmp")
              (pjoin (pjoin "db" "users") ("John" ++ ".json")) = some fs3
            ∧ Write "db" (FS.mk ["db"] []) "users" "John" Json.null = (fs3, none,
                [Ev.lock "users", Ev.fs "mkdir", Ev.fs "write", Ev.fs "rename",
                 Ev.unlock "users"])
            ∧ lookupFile fs3.files (pjoin (pjoin "db" "users") ("John" ++ ".json"))
                = some (['n', 'u', 'l', 'l'] ++ ['\n'])
            ∧ lookupFile fs3.files (pjoin (pjoin "db" "users") ("John" ++ ".json") ++ ".tmp")
                = none) :=
  ⟨⟨by decide, by decide, rfl, rfl, by decide, by decide⟩,
    Write_commits_via_tmp_rename "db" (FS.mk ["db"] []) (FS.mk ["db/users", "db"] [])
      "users" "John" Json.null ['n', 'u', 'l', 'l']
      (by decide) (by decide) rfl rfl (by decide) (by decide)⟩

/-- C3, amended: for a bare resource name `R` — the probed path
`root/C/R` does not exist and the probe's fallback finds the regular
file `root/C/R.json` — `Delete(C,R)` succeeds and removes exactly that
resource's file: the file is gone, and every file or directory whose
path is not the removed path (in particular every sibling resource file
`root/C/S.json` with `S ≠ R`) is untouched. -/
theorem Delete_bare_name_removes_exactly (root : String) (fs : FS) (c r : String) (b : Bytes)
    (hc : c ≠ "") (hr : r ≠ "")
    (hbare : osStat fs (pjoin root (pjoin c r)) = none)
    (hfile : lookupFile fs.files (pjoin root (pjoin c r) ++ ".json") = some b)
    (hnotdir : pjoin root (pjoin c r) ++ ".json" ∉ fs.dirs) :
    (Delete root fs c r).2.1 = none
  ∧ lookupFile (Delete root fs c r).1.files (pjoin root (pjoin c r) ++ ".json") = none
  ∧ (∀ q bq, lookupFile fs.files q = some bq →
      underPath (pjoin root (pjoin c r) ++ ".json") q = false →
      lookupFile (Delete root fs c r).1.files q = some bq)
  ∧ (∀ d ∈ fs.dirs, underPath (pjoin root (pjoin c r) ++ ".json") d = false →
      d ∈ (Delete root fs c r).1.dirs)
  ∧ (∀ s bs, s ≠ r → '/' ∉ s.data →
      lookupFile fs.files (pjoin (pjoin root c) (s ++ ".json")) = some bs →
      lookupFile (Delete root fs c r).1.files (pjoin (pjoin root c) (s ++ ".json"))
        = some bs) := by
  have hstat : stat fs (pjoin root (pjoin c r)) = some FType.file := by
    rw [stat, hbare]
    simp [osStat, hnotdir, hfile]
  have hdel : Delete root fs c r =
      (removeAll fs (pjoin root (pjoin c r) ++ ".json"), none,
        [Ev.lock c, Ev.fs "stat", Ev.fs "remove", Ev.unlock c]) := by
    simp [Delete, hstat]
  have hkeep : ∀ q bq, lookupFile fs.files q = some bq →
      underPath (pjoin root (pjoin c r) ++ ".json") q = false →
      lookupFile (Delete root fs c r).1.files q = some bq := by
    intro q bq hlq hq
    rw [hdel]
    apply lookupFile_filter_retained hlq
    intro e hep
    simp [hep, hq]
  refine ⟨by rw [hdel], ?_, hkeep, ?_, ?_⟩
  · rw [hdel]
    apply lookupFile_filter_none
    intro e _ hep
    simp [hep, underPath_self]
  · intro d hd hdq
    rw [hdel]
    exact List.mem_filter.mpr ⟨hd, by simp [hdq]⟩
  · intro s bs hsr hs hlq
    have hX : pjoin root c ≠ "" := pjoin_ne_empty hc
    have hsj : (s ++ ".json" : String) ≠ "" := append_ne_empty_right (by decide)
    have hP : pjoin root (pjoin c r) ++ ".json" = pjoin root c ++ "/" ++ (r ++ ".json") := by
      rw [pjoin_assoc, pjoin_eq_append hX hr]
      apply String.ext
      simp [String.data_append, List.append_assoc]
    have hQ : pjoin (pjoin root c) (s ++ ".json") = pjoin root c ++ "/" ++ (s ++ ".json") :=
      pjoin_eq_append hX hsj
    have h1 : pjoin root c ++ "/" ++ (s ++ ".json") ≠ pjoin root c ++ "/" ++ (r ++ ".json") := by
      intro heq
      apply hsr
      have hd := congrArg String.data heq
      simp only [String.data_append] at hd
      have hd2 := List.append_cancel_left hd
      exact String.ext (List.append_cancel_right hd2)
    have h2 : beginsWith ((pjoin root c ++ "/" ++ (r ++ ".json")) ++ "/").data
        (pjoin root c ++ "/" ++ (s ++ ".json")).data = false := by
      cases hbw : beginsWith ((pjoin root c ++ "/" ++ (r ++ ".json")) ++ "/").data
          (pjoin root c ++ "/" ++ (s ++ ".json")).data with
      | false => rfl
      | true =>
        exfalso
        have hpre := (beginsWith_iff _ _).mp hbw
        have e1 : ((pjoin root c ++ "/" ++ (r ++ ".json")) ++ "/").data
            = (pjoin root c ++ "/").data ++ ((r ++ ".json").data ++ ['/']) := by
          simp [String.data_append, List.append_assoc]
        have e2 : (pjoin root c ++ "/" ++ (s ++ ".json")).data
            = (pjoin root c ++ "/").data ++ (s ++ ".json").data := by
          simp [String.data_append]
        rw [e1, e2] at hpre
        have hpre2 := prefix_cancel hpre
        have hmem : '/' ∈ (s ++ ".json").data := hpre2.subset (by simp)
        rw [String.data_append] at hmem
        rcases List.mem_append.mp hmem with hm | hm
        · exact hs hm
        · exact absurd hm (by decide)
    have hunder : underPath (pjoin root (pjoin c r) ++ ".json")
        (pjoin (pjoin root c) (s ++ ".json")) = false := by
      rw [hP, hQ, underPath, Bool.or_eq_false_iff]
      exact ⟨decide_eq_false h1, h2⟩
    exact hkeep _ _ hlq hunder

/-- Witness for C3's amended theorem at a concrete input: deleting bare
`John` from a collection holding `John.json` and a sibling `Mary.json`. -/
theorem Delete_bare_name_removes_exactly_witness :
    (("users" : String) ≠ "" ∧ ("John" : String) ≠ ""
      ∧ osStat (FS.mk ["db", "db/users"]
            [("db/users/John.json", ['x']), ("db/users/Mary.json", ['y'])])
          (pjoin "db" (pjoin "users" "John")) = none
      ∧ lookupFile (FS.mk ["db", "db/users"]
            [("db/users/John.json", ['x']), ("db/users/Mary.json", ['y'])]).files
          (pjoin "db" (pjoin "users" "John") ++ ".json") = some ['x']
      ∧ pjoin "db" (pjoin "users" "John") ++ ".json"
          ∉ (FS.mk ["db", "db/users"]
              [("db/users/John.json", ['x']), ("db/users/Mary.json", ['y'])]).dirs)
  ∧ ((Delete "db" (FS.mk ["db", "db/users"]
        [("db/users/John.json", ['x']), ("db/users/Mary.json", ['y'])])
        "users" "John").2.1 = none
    ∧ lookupFile (Delete "db" (FS.mk ["db", "db/users"]
        [("db/users/John.json", ['x']), ("db/users/Mary.json", ['y'])])
        "users" "John").1.files (pjoin "db" (pjoin "users" "John") ++ ".json") = none
    ∧ (∀ q bq, lookupFile (FS.mk ["db", "db/users"]
          [("db/users/John.json", ['x']), ("db/users/Mary.json", ['y'])]).files q = some bq →
        underPath (pjoin "db" (pjoin "users" "John") ++ ".json") q = false →
        lookupFile (Delete "db" (FS.mk ["db", "db/users"]
          [("db/users/John.json", ['x']), ("db/users/Mary.json", ['y'])])
          "users" "John").1.files q = some bq)
    ∧ (∀ d ∈ (FS.mk ["db", "db/users"]
          [("db/users/John.json", ['x']), ("db/users/Mary.json", ['y'])]).dirs,
        underPath (pjoin "db" (pjoin "users" "John") ++ ".json") d = false →
        d ∈ (Delete "db" (FS.mk ["db", "db/users"]
          [("db/users/John.json", ['x']), ("db/users/Mary.json", ['y'])])
          "users" "John").1.dirs)
    ∧ (∀ s bs, s ≠ "John" → '/' ∉ s.data →
        lookupFile (FS.mk ["db", "db/users"]
          [("db/users/John.json", ['x']), ("db/users/Mary.json", ['y'])]).files
          (pjoin (pjoin "db" "users") (s ++ ".json")) = some bs →
        lookupFile (Delete "db" (FS.mk ["db", "db/users"]
          [("db/users/John.json", ['x']), ("db/users/Mary.json", ['y'])])
          "users" "John").1.files (pjoin (pjoin "db" "users") (s ++ ".json")) = some bs)) :=
  ⟨⟨by decide, by decide, by decide, by decide, by decide⟩,
    Delete_bare_name_removes_exactly "db"
      (FS.mk ["db", "db/users"]
        [("db/users/John.json", ['x']), ("db/users/Mary.json", ['y'])])
      "users" "John" ['x'] (by decide) (by decide) (by decide) (by decide) (by decide)⟩

/-! ## Lemmas for C8: a batch of writes followed by `ReadAll` -/

theorem str_append_left_cancel {s x y : String} (h : s ++ x = s ++ y) : x = y := by
  apply String.ext
  have hd : s.data ++ x.data = s.data ++ y.data := by
    rw [← String.data_append, ← String.data_append, h]
  exact List.append_cancel_left hd

theorem str_append_right_cancel {x y t : String} (h : x ++ t = y ++ t) : x = y := by
  apply String.ext
  have hd : x.data ++ t.data = y.data ++ t.data := by
    rw [← String.data_append, ← String.data_append, h]
  exact List.append_cancel_right hd

theorem pjoin_right_inj {dir x y : String} (hdir : dir ≠ "") (hx : x ≠ "") (hy : y ≠ "")
    (h : pjoin dir x = pjoin dir y) : x = y := by
  rw [pjoin_eq_append hdir hx, pjoin_eq_append hdir hy] at h
  exact str_append_left_cancel h

theorem pjoin_length {a b : String} (ha : a ≠ "") (hb : b ≠ "") :
    (pjoin a b).length = a.length + 1 + b.length := by
  rw [pjoin_eq_append ha hb, String.length_append, String.length_append]
  rfl

theorem length_append_str (s t : String) : (s ++ t).length = s.length + t.length :=
  String.length_append s t

theorem ne_of_length_ne {a b : String} (h : a.length ≠ b.length) : a ≠ b :=
  fun he => h (he ▸ rfl)

theorem noslash_append {a b : String} (ha : '/' ∉ a.data) (hb : '/' ∉ b.data) :
    '/' ∉ (a ++ b).data := by
  rw [String.data_append]
  intro h
  rcases List.mem_append.mp h with h | h
  · exact ha h
  · exact hb h

theorem insertSorted_perm (a : String) (l : List String) :
    (insertSorted a l).Perm (a :: l) := by
  induction l with
  | nil => exact List.Perm.refl _
  | cons b rest ih =>
    rw [insertSorted]
    by_cases hab : a ≤ b
    · rw [if_pos hab]
    · rw [if_neg hab]
      exact (List.Perm.cons b ih).trans (List.Perm.swap a b rest)

theorem sortNames_perm (l : List String) : (sortNames l).Perm l := by
  induction l with
  | nil => exact List.Perm.refl _
  | cons a rest ih =>
    rw [sortNames]
    exact (insertSorted_perm a (sortNames rest)).trans (List.Perm.cons a ih)

theorem readFilesLoop_map {fs : FS} {dir : String} {g : String → Bytes} :
    ∀ {ns : List String}, (∀ n ∈ ns, readFile fs (pjoin dir n) = some (g n)) →
    readFilesLoop fs dir ns = some (ns.map g) := by
  intro ns
  induction ns with
  | nil => intro _; rfl
  | cons n rest ih =>
    intro h
    rw [readFilesLoop, h n (List.mem_cons_self n rest),
      ih (fun x hx => h x (List.mem_cons_of_mem n hx))]
    rfl

theorem filterMap_eq_map_of_some {α β : Type} {f : α → Option β} {h : α → β}
    {l : List α} (hl : ∀ a ∈ l, f a = some (h a)) : l.filterMap f = l.map h := by
  induction l with
  | nil => rfl
  | cons a rest ih =>
    rw [List.filterMap_cons, hl a (List.mem_cons_self a rest), List.map_cons,
      ih (fun x hx => hl x (List.mem_cons_of_mem a hx))]

theorem childName_append {dir nm : String} (hnm : nm ≠ "") (hs : '/' ∉ nm.data) :
    childName dir (dir ++ "/" ++ nm) = some nm := by
  have hdata : (dir ++ "/" ++ nm).data = (dir ++ "/").data ++ nm.data :=
    String.data_append _ _
  have hbw : beginsWith (dir ++ "/").data (dir ++ "/" ++ nm).data = true :=
    (beginsWith_iff _ _).mpr ⟨nm.data, hdata.symm⟩
  have hrest : (dir ++ "/" ++ nm).data.drop (dir ++ "/").data.length = nm.data := by
    rw [hdata]
    exact List.drop_left _ _
  have hne : nm.data ≠ [] := fun hd => hnm (String.ext hd)
  rw [childName, if_pos hbw, hrest, if_pos ⟨hne, hs⟩]

theorem FS_dirs_mk (d : List String) (f : List (String × Bytes)) : (FS.mk d f).dirs = d := rfl

theorem FS_files_mk (d : List String) (f : List (String × Bytes)) : (FS.mk d f).files = f := rfl

theorem ne_of_getLast {a b : String} {x y : Char} (ha : a.data.getLast? = some x)
    (hb : b.data.getLast? = some y) (hxy : x ≠ y) : a ≠ b := by
  intro h
  rw [h, hb] at ha
  exact hxy (Option.some.inj ha).symm

theorem pjoin_json_last {dir nm : String} (hdir : dir ≠ "") :
    (pjoin dir (nm ++ ".json")).data.getLast? = some 'n' := by
  rw [pjoin_eq_append hdir (append_ne_empty_right (by decide)),
    string_append_data_getLast (append_ne_empty_right (by decide)),
    string_append_data_getLast (t := ".json") (by decide)]
  rfl

theorem append_tmp_last (s : String) : (s ++ ".tmp").data.getLast? = some 'p' := by
  rw [string_append_data_getLast (t := ".tmp") (by decide)]
  rfl

/-- The directory list of a store in which `MkdirAll(root/c)` has run at
least once starting from dirs `ancestors root`. -/
def colDirs (root c : String) : List String :=
  (ancestors (pjoin root c)).filter (fun d => decide (d ∉ ancestors root)) ++ ancestors root

theorem ancestors_sub_colDirs {root c : String} :
    ∀ a ∈ ancestors (pjoin root c), a ∈ colDirs root c := by
  intro a ha
  by_cases h : a ∈ ancestors root
  · exact List.mem_append.mpr (Or.inr h)
  · exact List.mem_append.mpr (Or.inl (List.mem_filter.mpr ⟨ha, by simpa using h⟩))

theorem mem_colDirs_length_le {root c : String} (hroot : root ≠ "") (hc : c ≠ "") :
    ∀ d ∈ colDirs root c, d.length ≤ (pjoin root c).length := by
  intro d hd
  rcases List.mem_append.mp hd with hm | hm
  · exact mem_ancestors_length_le (List.mem_filter.mp hm).1
  · have h1 := mem_ancestors_length_le hm
    have h2 : (pjoin root c).length = root.length + 1 + c.length := pjoin_length hroot hc
    omega

theorem fnl_length {root c : String} (hc : c ≠ "") (r : String) :
    (pjoin (pjoin root c) (r ++ ".json")).length = (pjoin root c).length + 6 + r.length := by
  have hdir : pjoin root c ≠ "" := pjoin_ne_empty hc
  rw [pjoin_length hdir (append_ne_empty_right (by decide)), length_append_str]
  have h5 : (".json" : String).length = 5 := rfl
  omega

theorem mkdirAll_eq {fs : FS} {p : String}
    (h : ∀ a ∈ ancestors p, lookupFile fs.files a = none) :
    mkdirAll fs p = some (FS.mk
      ((ancestors p).filter (fun d => decide (d ∉ fs.dirs)) ++ fs.dirs) fs.files) := by
  have hany : (ancestors p).any (fun d => (lookupFile fs.files d).isSome) = false := by
    rw [List.any_eq_false]
    intro a ha
    rw [h a ha]
    simp
  rw [mkdirAll, if_neg (by rw [hany]; simp)]

theorem writeFile_eq {fs : FS} {p : String} {b : Bytes} (hp : p ∉ fs.dirs) :
    writeFile fs p b = some (FS.mk fs.dirs ((p, b) :: removeFile fs.files p)) := by
  rw [writeFile, if_neg hp]

theorem rename_eq {fs : FS} {src dst : String} {b : Bytes}
    (hlk : lookupFile fs.files src = some b) (hd : dst ∉ fs.dirs) :
    rename fs src dst
      = some (FS.mk fs.dirs ((dst, b) :: removeFile (removeFile fs.files src) dst)) := by
  rw [rename, hlk]
  simp [hd]

/-- One successful `Write` step on a store whose directories and files
keep clear of the written paths: the collection's ancestor directories
get created, the serialized bytes land at the final path, and nothing
else changes. -/
theorem Write_ok (root : String) (fs : FS) (c r : String) (v : Json) (b : Bytes)
    (hc : c ≠ "") (hr : r ≠ "")
    (hm : marshalIndent v = Except.ok b)
    (hnof : ∀ a ∈ ancestors (pjoin root c), lookupFile fs.files a = none)
    (htmpa : pjoin (pjoin root c) (r ++ ".json") ++ ".tmp" ∉ ancestors (pjoin root c))
    (htmpd : pjoin (pjoin root c) (r ++ ".json") ++ ".tmp" ∉ fs.dirs)
    (hfnla : pjoin (pjoin root c) (r ++ ".json") ∉ ancestors (pjoin root c))
    (hfnld : pjoin (pjoin root c) (r ++ ".json") ∉ fs.dirs)
    (hrm1 : ∀ e ∈ fs.files, e.1 ≠ pjoin (pjoin root c) (r ++ ".json") ++ ".tmp")
    (hrm2 : ∀ e ∈ fs.files, e.1 ≠ pjoin (pjoin root c) (r ++ ".json")) :
    Write root fs c r v =
      (FS.mk ((ancestors (pjoin root c)).filter (fun d => decide (d ∉ fs.dirs)) ++ fs.dirs)
        ((pjoin (pjoin root c) (r ++ ".json"), b ++ ['\n']) :: fs.files),
       none,
       [Ev.lock c, Ev.fs "mkdir", Ev.fs "write", Ev.fs "rename", Ev.unlock c]) := by
  have hmk := mkdirAll_eq hnof
  have htmp' : pjoin (pjoin root c) (r ++ ".json") ++ ".tmp"
      ∉ ((ancestors (pjoin root c)).filter (fun d => decide (d ∉ fs.dirs)) ++ fs.dirs) := by
    intro hmem
    rcases List.mem_append.mp hmem with hm' | hm'
    · exact htmpa (List.mem_filter.mp hm').1
    · exact htmpd hm'
  have hfnl' : pjoin (pjoin root c) (r ++ ".json")
      ∉ ((ancestors (pjoin root c)).filter (fun d => decide (d ∉ fs.dirs)) ++ fs.dirs) := by
    intro hmem
    rcases List.mem_append.mp hmem with hm' | hm'
    · exact hfnla (List.mem_filter.mp hm').1
    · exact hfnld hm'
  have hwf : writeFile
      (FS.mk ((ancestors (pjoin root c)).filter (fun d => decide (d ∉ fs.dirs)) ++ fs.dirs)
        fs.files)
      (pjoin (pjoin root c) (r ++ ".json") ++ ".tmp") (b ++ ['\n'])
      = some (FS.mk
          ((ancestors (pjoin root c)).filter (fun d => decide (d ∉ fs.dirs)) ++ fs.dirs)
          ((pjoin (pjoin root c) (r ++ ".json") ++ ".tmp", b ++ ['\n']) :: fs.files)) := by
    rw [writeFile_eq htmp', FS_dirs_mk, FS_files_mk, removeFile_eq_self hrm1]
  have hlk : lookupFile
      ((pjoin (pjoin root c) (r ++ ".json") ++ ".tmp", b ++ ['\n']) :: fs.files)
      (pjoin (pjoin root c) (r ++ ".json") ++ ".tmp") = some (b ++ ['\n']) := by
    rw [lookupFile, if_pos rfl]
  have hrm : removeFile (removeFile
      ((pjoin (pjoin root c) (r ++ ".json") ++ ".tmp", b ++ ['\n']) :: fs.files)
      (pjoin (pjoin root c) (r ++ ".json") ++ ".tmp"))
      (pjoin (pjoin root c) (r ++ ".json")) = fs.files := by
    rw [removeFile, if_pos rfl, removeFile_eq_self hrm1, removeFile_eq_self hrm2]
  have hrn : rename
      (FS.mk ((ancestors (pjoin root c)).filter (fun d => decide (d ∉ fs.dirs)) ++ fs.dirs)
        ((pjoin (pjoin root c) (r ++ ".json") ++ ".tmp", b ++ ['\n']) :: fs.files))
      (pjoin (pjoin root c) (r ++ ".json") ++ ".tmp")
      (pjoin (pjoin root c) (r ++ ".json"))
      = some (FS.mk
          ((ancestors (pjoin root c)).filter (fun d => decide (d ∉ fs.dirs)) ++ fs.dirs)
          ((pjoin (pjoin root c) (r ++ ".json"), b ++ ['\n']) :: fs.files)) := by
    rw [@rename_eq (FS.mk
        ((ancestors (pjoin root c)).filter (fun d => decide (d ∉ fs.dirs)) ++ fs.dirs)
        ((pjoin (pjoin root c) (r ++ ".json") ++ ".tmp", b ++ ['\n']) :: fs.files))
      _ _ _ hlk hfnl', FS_dirs_mk, FS_files_mk, hrm]
  simp only [Write, if_neg hc, if_neg hr, hmk, hm, hwf, hrn]

/-- Folding `Write` over a list of distinct fresh resources: every write
succeeds, the directory list stabilizes at `colDirs root c`, and each
write prepends its serialized file. -/
theorem writeMany_inv (root c : String) (hroot : root ≠ "") (hc : c ≠ "") :
    ∀ (l : List (String × Json)) (bs : List Bytes),
    List.Forall₂ (fun (p : String × Json) b => marshalIndent p.2 = Except.ok b) l bs →
    ∀ F : List (String × Bytes),
    (∀ p ∈ l, p.1 ≠ "") →
    (l.map Prod.fst).Nodup →
    (∀ e ∈ F, ∃ nm, e.1 = pjoin (pjoin root c) (nm ++ ".json") ∧ nm ∉ l.map Prod.fst) →
    writeMany root (FS.mk (colDirs root c) F) c l
      = (FS.mk (colDirs root c)
          (((l.zip bs).map (fun pb =>
              (pjoin (pjoin root c) (pb.1.1 ++ ".json"), pb.2 ++ ['\n']))).reverse ++ F),
         none) := by
  intro l bs hser
  induction hser with
  | nil =>
    intro F _ _ _
    simp [writeMany]
  | @cons p b l' bs' hpb hrest ih =>
    obtain ⟨rn, vv⟩ := p
    intro F hnames hnd hkeys
    have hdir : pjoin root c ≠ "" := pjoin_ne_empty hc
    have hrn0 : rn ≠ "" := hnames (rn, vv) (List.mem_cons_self _ _)
    have hnof : ∀ a ∈ ancestors (pjoin root c),
        lookupFile (FS.mk (colDirs root c) F).files a = none := by
      intro a ha
      rw [FS_files_mk, lookupFile_none_iff]
      intro e he
      rcases hkeys e he with ⟨nm, hk, _⟩
      apply ne_of_length_ne
      rw [hk, fnl_length hc]
      have := mem_ancestors_length_le ha
      omega
    have htmplen : (pjoin (pjoin root c) (rn ++ ".json") ++ ".tmp").length
        = (pjoin root c).length + 10 + rn.length := by
      rw [length_append_str, fnl_length hc]
      have h4 : (".tmp" : String).length = 4 := rfl
      omega
    have htmpa : pjoin (pjoin root c) (rn ++ ".json") ++ ".tmp"
        ∉ ancestors (pjoin root c) := by
      intro hm'
      have := mem_ancestors_length_le hm'
      rw [htmplen] at this
      omega
    have htmpd : pjoin (pjoin root c) (rn ++ ".json") ++ ".tmp"
        ∉ (FS.mk (colDirs root c) F).dirs := by
      rw [FS_dirs_mk]
      intro hm'
      have := mem_colDirs_length_le hroot hc _ hm'
      rw [htmplen] at this
      omega
    have hfnla : pjoin (pjoin root c) (rn ++ ".json") ∉ ancestors (pjoin root c) := by
      intro hm'
      have := mem_ancestors_length_le hm'
      rw [fnl_length hc] at this
      omega
    have hfnld : pjoin (pjoin root c) (rn ++ ".json") ∉ (FS.mk (colDirs root c) F).dirs := by
      rw [FS_dirs_mk]
      intro hm'
      have := mem_colDirs_length_le hroot hc _ hm'
      rw [fnl_length hc] at this
      omega
    have hrm1 : ∀ e ∈ (FS.mk (colDirs root c) F).files,
        e.1 ≠ pjoin (pjoin root c) (rn ++ ".json") ++ ".tmp" := by
      rw [FS_files_mk]
      intro e he
      rcases hkeys e he with ⟨nm, hk, _⟩
      rw [hk]
      exact ne_of_getLast (pjoin_json_last hdir) (append_tmp_last _) (by decide)
    have hrm2 : ∀ e ∈ (FS.mk (colDirs root c) F).files,
        e.1 ≠ pjoin (pjoin root c) (rn ++ ".json") := by
      rw [FS_files_mk]
      intro e he
      rcases hkeys e he with ⟨nm, hk, hnm⟩
      rw [hk]
      intro heq
      have h1 := pjoin_right_inj hdir (append_ne_empty_right (by decide))
        (append_ne_empty_right (by decide)) heq
      have h2 := str_append_right_cancel h1
      apply hnm
      rw [h2, List.map_cons]
      exact List.mem_cons_self _ _
    have hW := Write_ok root (FS.mk (colDirs root c) F) c rn vv b hc hrn0 hpb hnof
      htmpa htmpd hfnla hfnld hrm1 hrm2
    rw [FS_dirs_mk, FS_files_mk] at hW
    have hfilter : (ancestors (pjoin root c)).filter
        (fun d => decide (d ∉ colDirs root c)) = [] := by
      rw [List.filter_eq_nil_iff]
      intro a ha
      simpa using ancestors_sub_colDirs a ha
    rw [hfilter, List.nil_append] at hW
    have hnd' : (l'.map Prod.fst).Nodup := by
      rw [List.map_cons, List.nodup_cons] at hnd
      exact hnd.2
    have hhead : rn ∉ l'.map Prod.fst := by
      rw [List.map_cons, List.nodup_cons] at hnd
      exact hnd.1
    have hstep := ih ((pjoin (pjoin root c) (rn ++ ".json"), b ++ ['\n']) :: F)
      (fun q hq => hnames q (List.mem_cons_of_mem _ hq))
      hnd'
      (by
        intro e he
        rcases List.mem_cons.mp he with rfl | he'
        · exact ⟨rn, rfl, hhead⟩
        · rcases hkeys e he' with ⟨nm, hk, hnm⟩
          refine ⟨nm, hk, fun h' => hnm ?_⟩
          rw [List.map_cons]
          exact List.mem_cons_of_mem _ h')
    simp only [writeMany, hW]
    rw [hstep]
    simp [List.append_assoc]

theorem childName_none_of_short {dir d : String} (h : d.length ≤ dir.length) :
    childName dir d = none := by
  cases hbw : beginsWith (dir ++ "/").data d.data with
  | false => rw [childName, hbw]; rfl
  | true =>
    exfalso
    have hpre := (beginsWith_iff _ _).mp hbw
    have hlen := hpre.length_le
    rw [String.data_append] at hlen
    rw [List.length_append] at hlen
    have h1 : ("/" : String).data.length = 1 := rfl
    have h2 : dir.data.length = dir.length := rfl
    have h3 : d.data.length = d.length := rfl
    omega

/-- The directory-entry name of a stored file. -/
def entryName (dir : String) (e : String × Bytes) : String :=
  (childName dir e.1).getD ""

/-- The content `ReadAll`'s loop reads back for entry name `n`. -/
def readBack (F : List (String × Bytes)) (dir n : String) : Bytes :=
  (lookupFile F (pjoin dir n)).getD []

/-- `ReadAll` on a collection directory whose entries are exactly the
files `F` (every file an immediate child with a distinct name, and no
directory a child) succeeds and returns a permutation of the stored
contents. -/
theorem ReadAll_children (root c : String) (hc : c ≠ "")
    (D : List String) (F : List (String × Bytes))
    (hdirin : pjoin root c ∈ D)
    (hD : ∀ d ∈ D, childName (pjoin root c) d = none)
    (hF : ∀ e ∈ F, ∃ nm, nm ≠ "" ∧ '/' ∉ nm.data ∧ e.1 = pjoin root c ++ "/" ++ nm)
    (hnd : (F.map Prod.fst).Nodup)
    (hFd : ∀ e ∈ F, e.1 ∉ D) :
    ∃ blobs, (ReadAll root (FS.mk D F) c).2.1 = Except.ok blobs
      ∧ blobs.Perm (F.map Prod.snd) := by
  have hdir : pjoin root c ≠ "" := pjoin_ne_empty hc
  have hstat : stat (FS.mk D F) (pjoin root c) = some FType.dir := by
    rw [stat, osStat, if_pos hdirin]
  have hch : ∀ e ∈ F, childName (pjoin root c) e.1 = some (entryName (pjoin root c) e) := by
    intro e he
    rcases hF e he with ⟨nm, h1, h2, h3⟩
    rw [entryName, h3, childName_append h1 h2]
    rfl
  have hchname : ∀ e ∈ F, ∀ nm, nm ≠ "" → '/' ∉ nm.data →
      e.1 = pjoin root c ++ "/" ++ nm → entryName (pjoin root c) e = nm := by
    intro e he nm h1 h2 h3
    have := hch e he
    rw [h3, childName_append h1 h2] at this
    exact (Option.some.inj this).symm
  have hnames' : F.filterMap (fun e => childName (pjoin root c) e.1)
      = F.map (entryName (pjoin root c)) := filterMap_eq_map_of_some hch
  have hDnil : D.filterMap (childName (pjoin root c)) = [] := by
    rw [List.filterMap_eq_nil_iff]
    exact hD
  have hrd : readDir (FS.mk D F) (pjoin root c)
      = some (sortNames (F.map (entryName (pjoin root c)))) := by
    rw [readDir, if_pos hdirin, FS_files_mk, FS_dirs_mk, hnames', hDnil, List.append_nil]
  have hpoint : ∀ e ∈ F,
      pjoin (pjoin root c) (entryName (pjoin root c) e) = e.1
        ∧ lookupFile F e.1 = some e.2 := by
    intro e he
    rcases hF e he with ⟨nm, h1, h2, h3⟩
    have hne := hchname e he nm h1 h2 h3
    constructor
    · rw [hne, pjoin_eq_append hdir h1, h3]
    · exact lookupFile_of_nodup hnd he
  have hread : ∀ n ∈ sortNames (F.map (entryName (pjoin root c))),
      readFile (FS.mk D F) (pjoin (pjoin root c) n)
        = some (readBack F (pjoin root c) n) := by
    intro n hn
    have hn' : n ∈ F.map (entryName (pjoin root c)) := (sortNames_perm _).mem_iff.mp hn
    rcases List.mem_map.mp hn' with ⟨e, he, hne⟩
    rcases hpoint e he with ⟨hp, hlf⟩
    subst hne
    rw [readFile, hp, if_neg (hFd e he), FS_files_mk, hlf, readBack, hp, hlf]
    rfl
  have hloop := readFilesLoop_map hread
  refine ⟨(sortNames (F.map (entryName (pjoin root c)))).map (readBack F (pjoin root c)),
    ?_, ?_⟩
  · simp only [ReadAll, if_neg hc, hstat, hrd, hloop]
  · have hperm1 := (sortNames_perm (F.map (entryName (pjoin root c)))).map
      (readBack F (pjoin root c))
    have heq : (F.map (entryName (pjoin root c))).map (readBack F (pjoin root c))
        = F.map Prod.snd := by
      rw [List.map_map]
      apply List.map_congr_left
      intro e he
      rcases hpoint e he with ⟨hp, hlf⟩
      show readBack F (pjoin root c) (entryName (pjoin root c) e) = e.2
      rw [readBack, hp, hlf]
      rfl
    rw [heq] at hperm1
    exact hperm1

theorem map_zip_fst {A B C : Type} (g : A → C) :
    ∀ (l₁ : List A) (l₂ : List B), l₁.length = l₂.length →
    (l₁.zip l₂).map (fun p => g p.1) = l₁.map g := by
  intro l₁
  induction l₁ with
  | nil => intro l₂ _; rfl
  | cons a t ih =>
    intro l₂ h
    cases l₂ with
    | nil => simp at h
    | cons b t₂ =>
      rw [List.zip_cons_cons, List.map_cons, List.map_cons, ih t₂ (by simpa using h)]

theorem map_zip_snd {A B C : Type} (g : B → C) :
    ∀ (l₁ : List A) (l₂ : List B), l₁.length = l₂.length →
    (l₁.zip l₂).map (fun p => g p.2) = l₂.map g := by
  intro l₁
  induction l₁ with
  | nil =>
    intro l₂ h
    cases l₂ with
    | nil => rfl
    | cons b t₂ => simp at h
  | cons a t ih =>
    intro l₂ h
    cases l₂ with
    | nil => simp at h
    | cons b t₂ =>
      rw [List.zip_cons_cons, List.map_cons, List.map_cons, ih t₂ (by simpa using h)]

/-- C8: writing `N ≥ 1` distinct non-empty resources into collection `C`
of a fresh store (so nothing else is ever created in C's directory) all
succeeds, leaving exactly `N` resource files; `ReadAll(C)` then succeeds
and returns exactly `N` text blobs whose multiset equals both the
multiset of the resource files' current contents and the multiset of the
written values' serializations (each with its trailing newline) — the
order `ReadAll` uses (directory enumeration order) is not asserted. -/
theorem writeMany_then_ReadAll (root c : String) (l : List (String × Json)) (bs : List Bytes)
    (hroot : root ≠ "") (hc : c ≠ "") (hl : l ≠ [])
    (hname : ∀ p ∈ l, p.1 ≠ "") (hslash : ∀ p ∈ l, '/' ∉ p.1.data)
    (hnd : (l.map Prod.fst).Nodup)
    (hser : List.Forall₂ (fun (p : String × Json) b => marshalIndent p.2 = Except.ok b) l bs) :
    (writeMany root (FS.mk (ancestors root) []) c l).2 = none
  ∧ (writeMany root (FS.mk (ancestors root) []) c l).1.files.length = l.length
  ∧ ∃ blobs,
      (ReadAll root (writeMany root (FS.mk (ancestors root) []) c l).1 c).2.1
        = Except.ok blobs
      ∧ blobs.length = l.length
      ∧ blobs.Perm ((writeMany root (FS.mk (ancestors root) []) c l).1.files.map Prod.snd)
      ∧ blobs.Perm (bs.map (fun bb => bb ++ ['\n'])) := by
  have hdir : pjoin root c ≠ "" := pjoin_ne_empty hc
  have hdirlen : (pjoin root c).length = root.length + 1 + c.length := pjoin_length hroot hc
  cases l with
  | nil => exact absurd rfl hl
  | cons p l' =>
    obtain ⟨rn, vv⟩ := p
    rcases hser with _ | ⟨hpb, hrest⟩
    rename_i b bs'
    have hrn0 : rn ≠ "" := hname _ (List.mem_cons_self _ _)
    have hlen' : l'.length = bs'.length := hrest.length_eq
    -- the first write, from the fresh store
    have htmplen : (pjoin (pjoin root c) (rn ++ ".json") ++ ".tmp").length
        = (pjoin root c).length + 10 + rn.length := by
      rw [length_append_str, fnl_length hc]
      have h4 : (".tmp" : String).length = 4 := rfl
      omega
    have hW := Write_ok root (FS.mk (ancestors root) []) c rn vv b hc hrn0 hpb
      (fun a _ => rfl)
      (by
        intro hm'
        have := mem_ancestors_length_le hm'
        rw [htmplen] at this
        omega)
      (by
        rw [FS_dirs_mk]
        intro hm'
        have := mem_ancestors_length_le hm'
        rw [htmplen] at this
        omega)
      (by
        intro hm'
        have := mem_ancestors_length_le hm'
        rw [fnl_length hc] at this
        omega)
      (by
        rw [FS_dirs_mk]
        intro hm'
        have := mem_ancestors_length_le hm'
        rw [fnl_length hc] at this
        omega)
      (by rw [FS_files_mk]; intro e he; cases he)
      (by rw [FS_files_mk]; intro e he; cases he)
    rw [FS_dirs_mk, FS_files_mk] at hW
    have hcol : (ancestors (pjoin root c)).filter (fun d => decide (d ∉ ancestors root))
        ++ ancestors root = colDirs root c := rfl
    rw [hcol] at hW
    have hnd' : (l'.map Prod.fst).Nodup := by
      rw [List.map_cons, List.nodup_cons] at hnd
      exact hnd.2
    have hhead : rn ∉ l'.map Prod.fst := by
      rw [List.map_cons, List.nodup_cons] at hnd
      exact hnd.1
    have hinv := writeMany_inv root c hroot hc l' bs' hrest
      [(pjoin (pjoin root c) (rn ++ ".json"), b ++ ['\n'])]
      (fun q hq => hname q (List.mem_cons_of_mem _ hq))
      hnd'
      (by
        intro e he
        rcases List.mem_cons.mp he with rfl | he'
        · exact ⟨rn, rfl, hhead⟩
        · cases he')
    have hwm : writeMany root (FS.mk (ancestors root) []) c ((rn, vv) :: l')
        = (FS.mk (colDirs root c)
            (((l'.zip bs').map (fun pb =>
                (pjoin (pjoin root c) (pb.1.1 ++ ".json"), pb.2 ++ ['\n']))).reverse
              ++ [(pjoin (pjoin root c) (rn ++ ".json"), b ++ ['\n'])]),
           none) := by
      simp only [writeMany, hW]
      exact hinv
    -- shape of the final file list
    have hFchar : ∀ e ∈ (((l'.zip bs').map (fun pb =>
          (pjoin (pjoin root c) (pb.1.1 ++ ".json"), pb.2 ++ ['\n']))).reverse
          ++ [(pjoin (pjoin root c) (rn ++ ".json"), b ++ ['\n'])]),
        ∃ nm, nm ≠ "" ∧ '/' ∉ nm.data ∧ e.1 = pjoin root c ++ "/" ++ nm := by
      intro e he
      rcases List.mem_append.mp he with hm' | hm'
      · rw [List.mem_reverse] at hm'
        rcases List.mem_map.mp hm' with ⟨qb, hqb, rfl⟩
        have hq := (List.of_mem_zip hqb).1
        refine ⟨qb.1.1 ++ ".json", append_ne_empty_right (by decide),
          noslash_append (hslash _ (List.mem_cons_of_mem _ hq)) (by decide), ?_⟩
        exact pjoin_eq_append hdir (append_ne_empty_right (by decide))
      · rcases List.mem_cons.mp hm' with rfl | hm''
        · exact ⟨rn ++ ".json", append_ne_empty_right (by decide),
            noslash_append (hslash _ (List.mem_cons_self _ _)) (by decide),
            pjoin_eq_append hdir (append_ne_empty_right (by decide))⟩
        · cases hm''
    have hkeysnd : ((((l'.zip bs').map (fun pb =>
          (pjoin (pjoin root c) (pb.1.1 ++ ".json"), pb.2 ++ ['\n']))).reverse
          ++ [(pjoin (pjoin root c) (rn ++ ".json"), b ++ ['\n'])]).map Prod.fst).Nodup := by
      have hmm : (((l'.zip bs').map (fun pb =>
            (pjoin (pjoin root c) (pb.1.1 ++ ".json"), pb.2 ++ ['\n']))).reverse
            ++ [(pjoin (pjoin root c) (rn ++ ".json"), b ++ ['\n'])]).map Prod.fst
          = ((l'.zip bs').map (fun pb =>
              pjoin (pjoin root c) (pb.1.1 ++ ".json"))).reverse
            ++ [pjoin (pjoin root c) (rn ++ ".json")] := by
        rw [List.map_append, List.map_reverse, List.map_map]
        rfl
      rw [hmm]
      have hz : (l'.zip bs').map (fun pb => pjoin (pjoin root c) (pb.1.1 ++ ".json"))
          = l'.map (fun q => pjoin (pjoin root c) (q.1 ++ ".json")) :=
        map_zip_fst (fun q => pjoin (pjoin root c) (q.1 ++ ".json")) l' bs' hlen'
      rw [hz]
      have hinj : Function.Injective (fun a : String =>
          pjoin (pjoin root c) (a ++ ".json")) := by
        intro a1 a2 h12
        have := pjoin_right_inj hdir (append_ne_empty_right (by decide))
          (append_ne_empty_right (by decide)) h12
        exact str_append_right_cancel this
      have hl2 : l'.map (fun q => pjoin (pjoin root c) (q.1 ++ ".json"))
          = (l'.map Prod.fst).map (fun a => pjoin (pjoin root c) (a ++ ".json")) := by
        rw [List.map_map]
        rfl
      rw [hl2]
      have hnodup_all : ((((rn, vv) :: l').map Prod.fst).map (fun a =>
          pjoin (pjoin root c) (a ++ ".json"))).Nodup := List.Nodup.map hinj hnd
      rw [List.map_cons, List.map_cons] at hnodup_all
      have hperm : (((l'.map Prod.fst).map (fun a =>
            pjoin (pjoin root c) (a ++ ".json"))).reverse
            ++ [pjoin (pjoin root c) (rn ++ ".json")]).Perm
          (pjoin (pjoin root c) (rn ++ ".json")
            :: (l'.map Prod.fst).map (fun a => pjoin (pjoin root c) (a ++ ".json"))) :=
        (List.perm_append_singleton _ _).trans (List.Perm.cons _ (List.reverse_perm _))
      exact hperm.symm.nodup hnodup_all
    have hFd : ∀ e ∈ (((l'.zip bs').map (fun pb =>
          (pjoin (pjoin root c) (pb.1.1 ++ ".json"), pb.2 ++ ['\n']))).reverse
          ++ [(pjoin (pjoin root c) (rn ++ ".json"), b ++ ['\n'])]),
        e.1 ∉ colDirs root c := by
      intro e he hmem
      rcases hFchar e he with ⟨nm, h1, h2, h3⟩
      have hle := mem_colDirs_length_le hroot hc _ hmem
      rw [h3, length_append_str, length_append_str] at hle
      have hnm1 : nm.length ≠ 0 := length_ne_zero_of_ne_empty h1
      have hsl : ("/" : String).length = 1 := rfl
      omega
    have hra := ReadAll_children root c hc (colDirs root c)
      (((l'.zip bs').map (fun pb =>
          (pjoin (pjoin root c) (pb.1.1 ++ ".json"), pb.2 ++ ['\n']))).reverse
        ++ [(pjoin (pjoin root c) (rn ++ ".json"), b ++ ['\n'])])
      (ancestors_sub_colDirs _ (self_mem_ancestors _))
      (fun d hd => childName_none_of_short (mem_colDirs_length_le hroot hc d hd))
      hFchar hkeysnd hFd
    rcases hra with ⟨blobs, hok, hperm⟩
    -- lengths
    have hflen : (((l'.zip bs').map (fun pb =>
          (pjoin (pjoin root c) (pb.1.1 ++ ".json"), pb.2 ++ ['\n']))).reverse
          ++ [(pjoin (pjoin root c) (rn ++ ".json"), b ++ ['\n'])]).length
        = ((rn, vv) :: l').length := by
      rw [List.length_append, List.length_reverse, List.length_map, List.length_zip,
        ← hlen', min_self]
      simp
    -- the stored contents are the serializations
    have hsnd : (((l'.zip bs').map (fun pb =>
          (pjoin (pjoin root c) (pb.1.1 ++ ".json"), pb.2 ++ ['\n']))).reverse
          ++ [(pjoin (pjoin root c) (rn ++ ".json"), b ++ ['\n'])]).map Prod.snd
        = ((l'.zip bs').map (fun pb => pb.2 ++ ['\n'])).reverse ++ [b ++ ['\n']] := by
      rw [List.map_append, List.map_reverse, List.map_map]
      rfl
    have hz2 : (l'.zip bs').map (fun pb => pb.2 ++ ['\n'])
        = bs'.map (fun bb => bb ++ ['\n']) :=
      map_zip_snd (fun bb => bb ++ ['\n']) l' bs' hlen'
    have hperm2 : ((bs'.map (fun bb => bb ++ ['\n'])).reverse ++ [b ++ ['\n']]).Perm
        ((b :: bs').map (fun bb => bb ++ ['\n'])) := by
      rw [List.map_cons]
      exact (List.perm_append_singleton _ _).trans
        (List.Perm.cons _ (List.reverse_perm _))
    refine ⟨by rw [hwm], ?_, blobs, ?_, ?_, ?_, ?_⟩
    · rw [hwm, FS_files_mk, hflen]
    · rw [hwm]
      exact hok
    · rw [hperm.length_eq, List.length_map, hflen]
    · rw [hwm, FS_files_mk]
      exact hperm
    · refine hperm.trans ?_
      rw [hsnd, hz2]
      exact hperm2

/-- Witness for C8 at a concrete input: two distinct resources written
into collection `users` of a fresh store rooted at `db`. -/
theorem writeMany_then_ReadAll_witness :
    (("db" : String) ≠ "" ∧ ("users" : String) ≠ ""
      ∧ [(("a" : String), Json.null), (("b" : String), Json.bool true)] ≠ []
      ∧ (∀ p ∈ [(("a" : String), Json.null), (("b" : String), Json.bool true)], p.1 ≠ "")
      ∧ (∀ p ∈ [(("a" : String), Json.null), (("b" : String), Json.bool true)],
          '/' ∉ p.1.data)
      ∧ ([(("a" : String), Json.null), (("b" : String), Json.bool true)].map
          Prod.fst).Nodup
      ∧ marshalIndent Json.null = Except.ok ['n', 'u', 'l', 'l']
      ∧ marshalIndent (Json.bool true) = Except.ok ['t', 'r', 'u', 'e'])
  ∧ ((writeMany "db" (FS.mk (ancestors "db") []) "users"
        [(("a" : String), Json.null), (("b" : String), Json.bool true)]).2 = none
    ∧ (writeMany "db" (FS.mk (ancestors "db") []) "users"
        [(("a" : String), Json.null), (("b" : String), Json.bool true)]).1.files.length
        = [(("a" : String), Json.null), (("b" : String), Json.bool true)].length
    ∧ ∃ blobs,
        (ReadAll "db"
          (writeMany "db" (FS.mk (ancestors "db") []) "users"
            [(("a" : String), Json.null), (("b" : String), Json.bool true)]).1
          "users").2.1 = Except.ok blobs
        ∧ blobs.length
            = [(("a" : String), Json.null), (("b" : String), Json.bool true)].length
        ∧ blobs.Perm
            ((writeMany "db" (FS.mk (ancestors "db") []) "users"
              [(("a" : String), Json.null), (("b" : String), Json.bool true)]).1.files.map
              Prod.snd)
        ∧ blobs.Perm ([['n', 'u', 'l', 'l'], ['t', 'r', 'u', 'e']].map
            (fun bb => bb ++ ['\n']))) :=
  ⟨⟨by decide, by decide, List.cons_ne_nil _ _, by decide, by decide, by decide, rfl, rfl⟩,
    writeMany_then_ReadAll "db" "users"
      [(("a" : String), Json.null), (("b" : String), Json.bool true)]
      [['n', 'u', 'l', 'l'], ['t', 'r', 'u', 'e']]
      (by decide) (by decide) (List.cons_ne_nil _ _) (by decide) (by decide) (by decide)
      (List.Forall₂.cons rfl (List.Forall₂.cons rfl List.Forall₂.nil))⟩

end GoDB
